import Mathlib

/-!
Verification development for the go-textmate tokenizer.

The Go sources are embedded shallowly:

* `regexp` adapter (oniguruma.go): a compiled regex is modelled as a total
  function `RegexFn : Str → Option (List Range)` giving the behaviour of
  `Regexp.Match(text, 0, len(text), OptionNotBeginPosition)`, i.e. an
  anchored match attempt at position 0 of the slice (onig_match only tries
  the given start position, so a successful group 0 starts at 0).  The
  adapter's guard `if len(text) == 0 { return nil, nil }` is mirrored by
  `rxMatch`.  Regex runtime errors are not modelled (the adapter is an
  opaque dependency); well-formedness of the ranges oniguruma can actually
  return is captured by the predicate `WfRegex`.
* compile.go: `RuleJSON`/`GrammarJSON` mirror the decoded grammar;
  `compileRule`, `compileCaptures`, `compileGrammar` mirror the compiler.
  Go's nil/non-nil slice and map distinction is kept with `Option`.
  The regex compiler `regexp.Compile` is an opaque parameter
  `rc : String → Except String RegexFn`.
* matcher.go: `evalRule`, `tryRules`, `evalCaptures`, `tokenizeSeq`,
  `tokenizeReaderM` mirror `includeRule.evaluate` / `expandRule.evaluate` /
  `matchRule.evaluate`, `TokenizeSequence` and `Grammar.TokenizeReader`.
  The mutual recursion of the Go code is not structurally terminating
  (a self-including repository rule recurses forever), so the evaluator
  takes a fuel argument; `none` means the Go program has not returned
  within that many call steps.  Go runtime panics that the evaluator can
  reach on malformed states (field access on a nil `*StackItem`, calling
  `Match` on a nil regexp) are modelled as the distinguished errors
  `EvalErr.stackFault` / `EvalErr.nilRegex`.
* Loader (unnamed/part_000): `Loader`, `fromScope`, `fromFileType`.
  `FromFileType` indexes `grms[index]` with a Go `int`; a negative index
  makes the Go program panic at that slice access, modelled as
  `CErr.indexFault`.
* Mapper (unnamed/part_001): `Mapper.add`; the Go loop would panic when a
  token with negative start and positive length indexes `tm[i]` with
  `i < 0`, modelled by returning `none`.

Text is `List Char`; byte offsets of the Go code become character offsets
(identical for the ASCII inputs used in the concrete runs).  A grammar's
back pointer `rule.grammar` is represented by storing the decoded
`GrammarJSON` in each compiled rule: `CompileGrammar` is deterministic, so
recompiling that source grammar yields the grammar the Go pointer denotes
(Go's `Loader.FromScope` also recompiles on every call).
-/

namespace GoTextmate

abbrev Str := List Char

/-- regexp.Range: a capture-group byte range. -/
structure Range where
  start : Nat
  stop : Nat
deriving DecidableEq, Repr

/-- regexp.Range.Len: End - Start, Go int subtraction. -/
def Range.len (r : Range) : Int := (r.stop : Int) - (r.start : Int)

/-- A compiled regex: the behaviour of Match(text, 0, len(text), NotBeginPosition). -/
abbrev RegexFn := Str → Option (List Range)

/-- regexp.Regexp.Match including the adapter's empty-text guard. -/
def rxMatch (re : RegexFn) (text : Str) : Option (List Range) :=
  if text.isEmpty then none else re text

/-- Token of matcher.go (Scope, Start, Length, Depth; the int fields as ℤ). -/
structure Token where
  scope : String
  start : Int
  length : Int
  depth : Int
deriving DecidableEq, Repr

/-- CompareToken: start ascending, then length ascending, then depth ascending. -/
def CompareToken (a b : Token) : Int :=
  if a.start ≠ b.start then a.start - b.start
  else if a.length ≠ b.length then a.length - b.length
  else a.depth - b.depth

/-- operation of compile.go. -/
inductive Operation where
  | nop
  | push
  | pop
deriving DecidableEq, Repr

/-- RuleJSON of compile.go (fields in source order: Name, Match, Begin, End,
While, Patterns, Captures, BeginCaptures, EndCaptures, Include).  Go's nil
maps are `none`. -/
inductive RuleJSON where
  | mk (name matchS beginS endS whileS : String)
      (patterns : List RuleJSON)
      (captures beginCaptures endCaptures : Option (List (String × RuleJSON)))
      (includeS : String)

/-- GrammarJSON of compile.go (the fields the compiler consumes). -/
structure GrammarJSON where
  name : String
  scopeName : String
  fileTypes : List String
  foldingStart : String
  foldingEnd : String
  firstLine : String
  repository : List (String × RuleJSON)
  patterns : List RuleJSON

/-- The compiled rule tree: includeRule / expandRule / matchRule of
matcher.go.  Each rule stores the decoded grammar it was compiled from,
standing for the Go back pointer `rule.grammar` (see the header comment).
`matchR`'s `pattern` is `none` exactly when the Go field is a nil pointer
(capture nodes), `captures`/`rules` are `none` exactly when the Go slice is
nil. -/
inductive CRule where
  | includeR (scopename rulename : String) (gj : GrammarJSON)
  | expandR (name : String) (rules : List CRule) (gj : GrammarJSON)
  | matchR (name : String) (pattern : Option RegexFn) (negate : Bool)
      (captures : Option (List (Option CRule))) (rules : Option (List CRule))
      (op : Operation) (gj : GrammarJSON)

/-- Compiled Grammar of compile.go (loader back pointer left implicit: the
evaluator takes the loader as a parameter). -/
structure CGrammar where
  scopeName : String
  fileTypes : List String
  foldingStart : Option RegexFn
  foldingEnd : Option RegexFn
  firstLine : Option RegexFn
  repository : List (String × CRule)
  root : CRule

/-- StackItem of matcher.go: the parse stack as a list of frames, head =
top, empty list = Go's nil pointer. -/
structure Frame where
  rules : List CRule
  offset : Nat

abbrev Stack := List Frame

/-- StackItem.Depth: 1 + one increment per frame down to the root; on a nil
receiver the loop body never runs and it returns 1. -/
def stackDepth (s : Stack) : Int := (s.length : Int) + 1

/-- Loader of part_000: decoded grammars indexed by scope and by file type. -/
structure Loader where
  scopes : List (String × GrammarJSON)
  filetypes : List (String × List GrammarJSON)

/-- Compile-time and loader errors.  `notFound` is os.ErrNotExist;
`indexFault` marks the Go runtime panic of a negative slice index in
`FromFileType`. -/
inductive CErr where
  | badRegex (pat msg : String)
  | badCaptureKey (key : String)
  | mismatchedBlock
  | notFound
  | indexFault
deriving DecidableEq, Repr

/-- Tokenize-time errors.  `stackFault` / `nilRegex` mark Go nil-pointer
panics that are unreachable for compiled grammars. -/
inductive EvalErr where
  | includeFail (scopename rulename : String)
  | unknownRule (scopename rulename : String)
  | stackFault
  | nilRegex
deriving DecidableEq, Repr

deriving instance DecidableEq for Except

/-- strings.Cut(s, "#"): before and after the first '#' (after = "" when
absent). -/
def cutHashAux : List Char → List Char × List Char
  | [] => ([], [])
  | c :: cs =>
    if c = '#' then ([], cs)
    else
      let p := cutHashAux cs
      (c :: p.1, p.2)

def cutHash (s : String) : String × String :=
  let p := cutHashAux s.data
  (String.mk p.1, String.mk p.2)

/-- A decimal digit's value. -/
def digitVal (c : Char) : Option Nat :=
  if '0' ≤ c ∧ c ≤ '9' then some (c.toNat - '0'.toNat) else none

def parseNatAux : Nat → List Char → Option Nat
  | acc, [] => some acc
  | acc, c :: cs =>
    match digitVal c with
    | none => none
    | some d => parseNatAux (acc * 10 + d) cs

/-- strconv.Atoi restricted to the unsigned decimal numerals that occur as
capture keys (Go would also accept a sign; a negative key would make the
Go program panic at `res[i]`, a case no claim exercises). -/
def parseCapKey (s : String) : Except CErr Nat :=
  match s.data with
  | [] => .error (.badCaptureKey s)
  | cs =>
    match parseNatAux 0 cs with
    | some n => .ok n
    | none => .error (.badCaptureKey s)

/-- First pass of compileCaptures: max of the parsed keys (0 when empty),
error on the first malformed key. -/
def maxCapKey : List (String × RuleJSON) → Except CErr Nat
  | [] => .ok 0
  | (num, _) :: rest =>
    match parseCapKey num with
    | .error e => .error e
    | .ok i =>
      match maxCapKey rest with
      | .error e => .error e
      | .ok m => .ok (max i m)

mutual

/-- compileRule of compile.go: dispatch Include / Match / Begin+End(or
While) / mismatched block / container. -/
def compileRule (rc : String → Except String RegexFn) (gj : GrammarJSON) :
    RuleJSON → Except CErr CRule
  | .mk name matchS beginS endS whileS patterns captures beginCaptures endCaptures includeS =>
    if includeS ≠ "" then
      let p := cutHash includeS
      .ok (.includeR p.1 p.2 gj)
    else if matchS ≠ "" then
      match rc matchS with
      | .error e => .error (.badRegex matchS e)
      | .ok pat =>
        match compileCaptures rc gj captures with
        | .error e => .error e
        | .ok caps => .ok (.matchR name (some pat) false caps none .nop gj)
    else if beginS ≠ "" ∧ (endS ≠ "" ∨ whileS ≠ "") then
      match rc beginS with
      | .error e => .error (.badRegex beginS e)
      | .ok beginPat =>
        let endptr := if whileS ≠ "" then whileS else endS
        let whileEnd := whileS ≠ ""
        match rc endptr with
        | .error e => .error (.badRegex endptr e)
        | .ok endPat =>
          let capsE :
              Except CErr (Option (List (Option CRule)) × Option (List (Option CRule))) :=
            if 0 < (captures.elim 0 List.length) then
              match compileCaptures rc gj beginCaptures with
              | .error e => .error e
              | .ok c => .ok (c, c)
            else
              match compileCaptures rc gj beginCaptures with
              | .error e => .error e
              | .ok bc =>
                match compileCaptures rc gj endCaptures with
                | .error e => .error e
                | .ok ec => .ok (bc, ec)
          match capsE with
          | .error e => .error e
          | .ok bcec =>
            match compileRules rc gj patterns with
            | .error e => .error e
            | .ok innerRules =>
              .ok (.matchR "" (some beginPat) false bcec.1
                (some (CRule.matchR name (some endPat) whileEnd bcec.2 none .pop gj
                  :: innerRules))
                .push gj)
    else if beginS ≠ "" ∨ endS ≠ "" ∨ whileS ≠ "" then
      .error .mismatchedBlock
    else
      match compileRules rc gj patterns with
      | .error e => .error e
      | .ok rs => .ok (.expandR name rs gj)

/-- The pattern-list loops of compile.go (abort on first error). -/
def compileRules (rc : String → Except String RegexFn) (gj : GrammarJSON) :
    List RuleJSON → Except CErr (List CRule)
  | [] => .ok []
  | j :: js =>
    match compileRule rc gj j with
    | .error e => .error e
    | .ok r =>
      match compileRules rc gj js with
      | .error e => .error e
      | .ok rs => .ok (r :: rs)

/-- Second pass of compileCaptures: each entry becomes a pattern-less
matchRule carrying the scope name and an always non-nil (possibly empty)
child-rule slice, Go `make([]rule, len(jp.Patterns))`. -/
def compileCapEntries (rc : String → Except String RegexFn) (gj : GrammarJSON) :
    List (String × RuleJSON) → Except CErr (List (Nat × CRule))
  | [] => .ok []
  | (num, jp) :: rest =>
    match parseCapKey num with
    | .error e => .error e
    | .ok i =>
      match jp with
      | .mk cname _ _ _ _ cpatterns _ _ _ _ =>
        match compileRules rc gj cpatterns with
        | .error e => .error e
        | .ok crules =>
          match compileCapEntries rc gj rest with
          | .error e => .error e
          | .ok others =>
            .ok ((i, CRule.matchR cname none false none (some crules) .nop gj) :: others)

/-- compileCaptures of compile.go: nil map stays nil; otherwise an array
sized max-index + 1 with missing slots nil.  Go fills `res[i]` while
iterating the map; with distinct numeric keys the fold below is
order-independent (duplicate numerals such as "1"/"01" would be resolved
nondeterministically by Go's map order; the fold lets later list entries
win). -/
def compileCaptures (rc : String → Except String RegexFn) (gj : GrammarJSON) :
    Option (List (String × RuleJSON)) → Except CErr (Option (List (Option CRule)))
  | none => .ok none
  | some m =>
    match maxCapKey m with
    | .error e => .error e
    | .ok maxc =>
      match compileCapEntries rc gj m with
      | .error e => .error e
      | .ok entries =>
        .ok (some (entries.foldl (fun res p => res.set p.1 (some p.2))
          (List.replicate (maxc + 1) none)))

end

/-- The optional grammar-level regexes of CompileGrammar. -/
def compileOptRegex (rc : String → Except String RegexFn) (s : String) :
    Except CErr (Option RegexFn) :=
  if s = "" then .ok none
  else
    match rc s with
    | .error e => .error (.badRegex s e)
    | .ok re => .ok (some re)

/-- The repository loop of CompileGrammar. -/
def compileRepo (rc : String → Except String RegexFn) (gj : GrammarJSON) :
    List (String × RuleJSON) → Except CErr (List (String × CRule))
  | [] => .ok []
  | (name, j) :: rest =>
    match compileRule rc gj j with
    | .error e => .error e
    | .ok r =>
      match compileRepo rc gj rest with
      | .error e => .error e
      | .ok rs => .ok ((name, r) :: rs)

/-- CompileGrammar of compile.go.  The root is an expandRule over the
top-level patterns named by the scope name. -/
def compileGrammar (rc : String → Except String RegexFn) (j : GrammarJSON) :
    Except CErr CGrammar :=
  match compileOptRegex rc j.foldingStart with
  | .error e => .error e
  | .ok fs =>
    match compileOptRegex rc j.foldingEnd with
    | .error e => .error e
    | .ok fe =>
      match compileOptRegex rc j.firstLine with
      | .error e => .error e
      | .ok fl =>
        match compileRules rc j j.patterns with
        | .error e => .error e
        | .ok rules =>
          match compileRepo rc j j.repository with
          | .error e => .error e
          | .ok repo =>
            .ok { scopeName := j.scopeName
                  fileTypes := j.fileTypes
                  foldingStart := fs
                  foldingEnd := fe
                  firstLine := fl
                  repository := repo
                  root := .expandR j.scopeName rules j }

/-- Loader.FromScope: look the scope up and compile (Go recompiles on every
call). -/
def fromScope (l : Loader) (rc : String → Except String RegexFn) (scope : String) :
    Except CErr CGrammar :=
  match l.scopes.lookup scope with
  | none => .error .notFound
  | some gj => compileGrammar rc gj

/-- Loader.FromFileType: `if !ok || index >= len(grms) { return nil,
os.ErrNotExist }; return CompileGrammar(l, grms[index])`.  A negative index
passes the guard and makes Go panic at `grms[index]`, modelled as
`CErr.indexFault`. -/
def fromFileType (l : Loader) (rc : String → Except String RegexFn)
    (ft : String) (index : Int) : Except CErr CGrammar :=
  match l.filetypes.lookup ft with
  | none => .error .notFound
  | some grms =>
    if (grms.length : Int) ≤ index then .error .notFound
    else if h : 0 ≤ index ∧ index < (grms.length : Int) then
      compileGrammar rc (grms.get ⟨index.toNat, by omega⟩)
    else .error .indexFault

/-- text[rng.Start:rng.End], the slice handed to the capture
sub-tokenization. -/
def sliceR (text : Str) (rng : Range) : Str :=
  (text.drop rng.start).take (rng.stop - rng.start)

mutual

/-- rule.evaluate of matcher.go.  Result: `none` = the Go call has not
returned within `fuel` steps; `some (toks, res)` = it returned, having
yielded `toks` in order, with `res` either an error or the new stack top
and the advance (Go's signed int). -/
def evalRule (l : Loader) (rc : String → Except String RegexFn) (fuel : Nat)
    (offset : Nat) (text : Str) (top : Stack) (base : CGrammar) (r : CRule) :
    Option (List Token × Except EvalErr (Stack × Int)) :=
  match fuel with
  | 0 => none
  | fuel' + 1 =>
    match r with
    | .includeR scopename rulename gj =>
      -- includeRule.evaluate: resolve the grammar, then the rule, then
      -- delegate.  "" and "$self" denote the rule's own grammar (the Go
      -- pointer; recompiling the stored source grammar is equivalent),
      -- "$base" the outermost grammar, anything else goes through the
      -- loader; any resolution failure becomes "unable to include".
      let og : Except CErr CGrammar :=
        if scopename = "" ∨ scopename = "$self" then compileGrammar rc gj
        else if scopename = "$base" then .ok base
        else fromScope l rc scopename
      match og with
      | .error _ => some ([], .error (.includeFail scopename rulename))
      | .ok g =>
        if rulename = "" then
          evalRule l rc fuel' offset text top base g.root
        else
          match g.repository.lookup rulename with
          | none => some ([], .error (.unknownRule scopename rulename))
          | some r' => evalRule l rc fuel' offset text top base r'
    | .expandR _ rules _ =>
      -- expandRule.evaluate: first child with a non-zero advance wins;
      -- the loop is the same scan as the TokenizeSequence inner loop.
      tryRules l rc fuel' offset text top base rules
    | .matchR name pat negate captures rulesOpt op _ =>
      match pat with
      | none => some ([], .error .nilRegex)
      | some re =>
        let groups? := rxMatch re text
        if groups?.isNone ≠ negate then some ([], .ok (top, 0))
        else
          let groups := groups?.getD []
          let length : Int := match groups with | [] => 0 | g0 :: _ => g0.len
          let nameToks : List Token :=
            if name ≠ "" then
              match groups with
              | g0 :: _ =>
                [⟨name, (g0.start : Int) + (offset : Int), g0.len, stackDepth top⟩]
              | [] => [⟨name, (offset : Int), 0, stackDepth top⟩]
            else []
          match evalCaptures l rc fuel' offset text top base groups (captures.getD []) with
          | none => none
          | some (capToks, some e) => some (nameToks ++ capToks, .error e)
          | some (capToks, none) =>
            match op with
            | .nop => some (nameToks ++ capToks, .ok (top, length))
            | .push =>
              some (nameToks ++ capToks,
                .ok (⟨rulesOpt.getD [], offset⟩ :: top, length))
            | .pop =>
              match top with
              | [] => some (nameToks ++ capToks, .error .stackFault)
              | f :: rest =>
                some (nameToks ++ capToks ++
                  [⟨name, (f.offset : Int),
                    length + (offset : Int) - (f.offset : Int), stackDepth top⟩],
                  .ok (rest, length))
termination_by structural fuel

/-- The inner rule loop shared by TokenizeSequence and expandRule.evaluate:
try the rules in order over the snapshot list, threading the stack, until
one returns a non-zero advance (Go `if adv != 0 break`); all-zero yields
advance 0. -/
def tryRules (l : Loader) (rc : String → Except String RegexFn) (fuel : Nat)
    (offset : Nat) (text : Str) (top : Stack) (base : CGrammar) (rules : List CRule) :
    Option (List Token × Except EvalErr (Stack × Int)) :=
  match fuel with
  | 0 => none
  | fuel' + 1 =>
    match rules with
    | [] => some ([], .ok (top, 0))
    | r :: rs =>
      match evalRule l rc fuel' offset text top base r with
      | none => none
      | some (toks, .error e) => some (toks, .error e)
      | some (toks, .ok (top', adv)) =>
        if adv ≠ 0 then some (toks, .ok (top', adv))
        else
          match tryRules l rc fuel' offset text top' base rs with
          | none => none
          | some (toks', res) => some (toks ++ toks', res)
termination_by structural fuel

/-- The capture loop of matchRule.evaluate: `for i, rng := range groups`,
breaking when i reaches len(captures), skipping empty ranges, nil entries
and non-matchRule entries; a named entry yields a token, an entry with a
non-nil rule slice sub-tokenizes text[rng.Start:rng.End] under a fresh
frame (offset 0) pushed on the current stack; a sub-tokenization error
aborts the whole evaluate call. -/
def evalCaptures (l : Loader) (rc : String → Except String RegexFn) (fuel : Nat)
    (offset : Nat) (text : Str) (top : Stack) (base : CGrammar)
    (groups : List Range) (captures : List (Option CRule)) :
    Option (List Token × Option EvalErr) :=
  match fuel with
  | 0 => none
  | fuel' + 1 =>
    match groups, captures with
    | [], _ => some ([], none)
    | _, [] => some ([], none)
    | rng :: gs, c :: cs =>
      let step : Option (List Token × Option EvalErr) :=
        if rng.len = 0 then some ([], none)
        else
          match c with
          | none => some ([], none)
          | some (.matchR cname _ _ _ crules _ _) =>
            let toks1 : List Token :=
              if cname ≠ "" then
                [⟨cname, (offset : Int) + (rng.start : Int), rng.len, stackDepth top⟩]
              else []
            match crules with
            | none => some (toks1, none)
            | some rl =>
              match tokenizeSeq l rc fuel' (offset + rng.start) (sliceR text rng)
                  (⟨rl, 0⟩ :: top) base with
              | none => none
              | some (toks2, .error e) => some (toks1 ++ toks2, some e)
              | some (toks2, .ok _) => some (toks1 ++ toks2, none)
          | some _ => some ([], none)
      match step with
      | none => none
      | some (toks, some e) => some (toks, some e)
      | some (toks, none) =>
        match evalCaptures l rc fuel' offset text top base gs cs with
        | none => none
        | some (toks', e') => some (toks ++ toks', e')
termination_by structural fuel

/-- TokenizeSequence of matcher.go, with the already-consumed prefix
dropped from `text` (the Go loop keeps the whole line and a `lineoffset`
cursor; evaluate only ever sees `text[lineoffset:]` and
`offset+lineoffset`, so dropping is equivalent).  When no rule consumed,
a 1-byte filler token with empty scope (and zero depth, the Go zero
value) is yielded and the cursor advances by 1.  A negative advance would
retry the same position with the new stack. -/
def tokenizeSeq (l : Loader) (rc : String → Except String RegexFn) (fuel : Nat)
    (offset : Nat) (text : Str) (top : Stack) (base : CGrammar) :
    Option (List Token × Except EvalErr Stack) :=
  match fuel with
  | 0 => none
  | fuel' + 1 =>
    match text with
    | [] => some ([], .ok top)
    | _ :: _ =>
      match top with
      | [] => some ([], .error .stackFault)
      | f :: _ =>
        match tryRules l rc fuel' offset text top base f.rules with
        | none => none
        | some (toks, .error e) => some (toks, .error e)
        | some (toks, .ok (top', adv)) =>
          if adv = 0 then
            match tokenizeSeq l rc fuel' (offset + 1) (text.drop 1) top' base with
            | none => none
            | some (toks', res) =>
              some (toks ++ ⟨"", (offset : Int), 1, 0⟩ :: toks', res)
          else
            let k := if 0 < adv then adv.toNat else 0
            match tokenizeSeq l rc fuel' (offset + k) (text.drop k) top' base with
            | none => none
            | some (toks', res) => some (toks ++ toks', res)
termination_by structural fuel

end

/-- The custom bufio split of TokenizeReader: lines keep their trailing
newline; a final unterminated chunk is returned as-is; nothing is emitted
after the last byte. -/
def splitLinesAux (acc : List Char) : List Char → List Str
  | [] => if acc.isEmpty then [] else [acc.reverse]
  | c :: rest =>
    if c = '\n' then (acc.reverse ++ ['\n']) :: splitLinesAux [] rest
    else splitLinesAux (c :: acc) rest

def splitLines (s : Str) : List Str := splitLinesAux [] s

/-- The scan loop of TokenizeReader: thread stack and global offset across
lines, abort on error, collect tokens. -/
def readerGo (l : Loader) (rc : String → Except String RegexFn) (fuel : Nat)
    (base : CGrammar) (offset : Nat) (top : Stack) :
    List Str → Option (Except EvalErr (List Token))
  | [] => some (.ok [])
  | line :: rest =>
    match tokenizeSeq l rc fuel offset line top base with
    | none => none
    | some (_, .error e) => some (.error e)
    | some (toks, .ok top') =>
      match readerGo l rc fuel base (offset + line.length) top' rest with
      | none => none
      | some (.error e) => some (.error e)
      | some (.ok toks') => some (.ok (toks ++ toks'))

/-- The stable ordering used to stabilize the reader output. -/
def tokenLE (a b : Token) : Prop := CompareToken a b ≤ 0

instance : DecidableRel tokenLE := fun a b => by
  unfold tokenLE; infer_instance

/-- Grammar.TokenizeReader of matcher.go: start from the grammar's root
frame, scan line by line, then sort with CompareToken.  Go's
slices.SortFunc is an unstable comparison sort; any sort producing a
CompareToken-sorted permutation models it, here insertion sort. -/
def tokenizeReaderM (l : Loader) (rc : String → Except String RegexFn)
    (fuel : Nat) (g : CGrammar) (input : Str) :
    Option (Except EvalErr (List Token)) :=
  match readerGo l rc fuel g 0 [⟨[g.root], 0⟩] (splitLines input) with
  | none => none
  | some (.error e) => some (.error e)
  | some (.ok toks) => some (.ok (toks.insertionSort tokenLE))

/-- Mapper of part_001: position-indexed token lists. -/
abbrev Mapper := List (List Token)

/-- The body of Mapper.Add's loop over `idx := range tok.Length`:
`n` iterations remain, `idx` is the loop counter.  `i >= len(tm)` breaks;
a negative `i` (token with negative start) would make Go panic at `tm[i]`,
modelled as `none`. -/
def mapperAddAux (tok : Token) : Mapper → Nat → Nat → Option Mapper
  | tm, 0, _ => some tm
  | tm, n + 1, idx =>
    let i : Int := (idx : Int) + tok.start
    if (tm.length : Int) ≤ i then some tm
    else if 0 ≤ i then
      mapperAddAux tok (tm.set i.toNat (tm.getD i.toNat [] ++ [tok])) n (idx + 1)
    else none

/-- Mapper.Add of part_001: tokens with empty scope are ignored; otherwise
the token is appended at every covered in-range position. -/
def mapperAdd (tm : Mapper) (tok : Token) : Option Mapper :=
  if tok.scope = "" then some tm
  else mapperAddAux tok tm tok.length.toNat 0

/-! ### Concrete regexes and grammars used in the concrete runs

`litRe c` is the behaviour of the oniguruma patterns used below — a
single literal character — under `onig_match` anchored at position 0:
one region (group 0) spanning exactly that character, or mismatch.
`rcT` is the regex compiler restricted to the pattern strings of the
concrete grammars. -/

def litRe (c : Char) : RegexFn := fun text =>
  match text with
  | t :: _ => if t = c then some [⟨0, 1⟩] else none
  | [] => none

def rcT : String → Except String RegexFn := fun s =>
  if s = "\\(" then .ok (litRe '(')
  else if s = "\\)" then .ok (litRe ')')
  else if s = "a" then .ok (litRe 'a')
  else .error "unsupported pattern"

def rjNone : Option (List (String × RuleJSON)) := none

/-- An empty loader (the concrete grammars use no cross-grammar
includes). -/
def L0 : Loader := ⟨[], []⟩

/-- C6 grammar: one begin/end rule, scope "block", with an inner match
rule of scope "id". -/
def inner6 : RuleJSON := .mk "id" "a" "" "" "" [] rjNone rjNone rjNone ""

def rule6 : RuleJSON := .mk "block" "" "\\(" "\\)" "" [inner6] rjNone rjNone rjNone ""

def gj6 : GrammarJSON :=
  { name := "t", scopeName := "source.t", fileTypes := ["t"],
    foldingStart := "", foldingEnd := "", firstLine := "",
    repository := [], patterns := [rule6] }

def inner6c : CRule := .matchR "id" (some (litRe 'a')) false none none .nop gj6

def pop6 : CRule := .matchR "block" (some (litRe ')')) false none none .pop gj6

def push6 : CRule :=
  .matchR "" (some (litRe '(')) false none (some [pop6, inner6c]) .push gj6

def g6 : CGrammar :=
  { scopeName := "source.t", fileTypes := ["t"],
    foldingStart := none, foldingEnd := none, firstLine := none,
    repository := [], root := .expandR "source.t" [push6] gj6 }

/-- C5 grammar: a match rule with a capture entry for group 0. -/
def capZero : RuleJSON := .mk "zero" "" "" "" "" [] rjNone rjNone rjNone ""

def rule5 : RuleJSON := .mk "m" "a" "" "" "" [] (some [("0", capZero)]) rjNone rjNone ""

def gj5 : GrammarJSON :=
  { name := "t", scopeName := "source.t5", fileTypes := [],
    foldingStart := "", foldingEnd := "", firstLine := "",
    repository := [], patterns := [rule5] }

def capZeroC : CRule := .matchR "zero" none false none (some []) .nop gj5

def m5 : CRule :=
  .matchR "m" (some (litRe 'a')) false (some [some capZeroC]) none .nop gj5

def g5 : CGrammar :=
  { scopeName := "source.t5", fileTypes := [],
    foldingStart := none, foldingEnd := none, firstLine := none,
    repository := [], root := .expandR "source.t5" [m5] gj5 }

/-- C3 counterexample grammar: a begin/end rule with no name. -/
def rule3 : RuleJSON := .mk "" "" "\\(" "\\)" "" [] rjNone rjNone rjNone ""

def gj3 : GrammarJSON :=
  { name := "t", scopeName := "source.t3", fileTypes := [],
    foldingStart := "", foldingEnd := "", firstLine := "",
    repository := [], patterns := [rule3] }

def pop3 : CRule := .matchR "" (some (litRe ')')) false none none .pop gj3

def push3 : CRule := .matchR "" (some (litRe '(')) false none (some [pop3]) .push gj3

def g3 : CGrammar :=
  { scopeName := "source.t3", fileTypes := [],
    foldingStart := none, foldingEnd := none, firstLine := none,
    repository := [], root := .expandR "source.t3" [push3] gj3 }

/-- C2 counterexample grammar: a match rule with empty scope name. -/
def rule2 : RuleJSON := .mk "" "a" "" "" "" [] rjNone rjNone rjNone ""

def gj2 : GrammarJSON :=
  { name := "t", scopeName := "source.t2", fileTypes := [],
    foldingStart := "", foldingEnd := "", firstLine := "",
    repository := [], patterns := [rule2] }

def g2 : CGrammar :=
  { scopeName := "source.t2", fileTypes := [],
    foldingStart := none, foldingEnd := none, firstLine := none,
    repository := [], root := .expandR "source.t2" [.matchR "" (some (litRe 'a')) false none none .nop gj2] gj2 }

/-- C2/C9/C10 witness grammar: a single named match rule. -/
def gjW : GrammarJSON :=
  { name := "t", scopeName := "source.tw", fileTypes := [],
    foldingStart := "", foldingEnd := "", firstLine := "",
    repository := [], patterns := [.mk "x" "a" "" "" "" [] rjNone rjNone rjNone ""] }

def mW : CRule := .matchR "x" (some (litRe 'a')) false none none .nop gjW

def gW : CGrammar :=
  { scopeName := "source.tw", fileTypes := [],
    foldingStart := none, foldingEnd := none, firstLine := none,
    repository := [], root := .expandR "source.tw" [mW] gjW }

/-- C4 failing input: begin/end rule with a non-empty `captures` map and a
nil `beginCaptures` map. -/
def capX : RuleJSON := .mk "x" "" "" "" "" [] rjNone rjNone rjNone ""

def rule4 : RuleJSON :=
  .mk "" "" "\\(" "\\)" "" [] (some [("1", capX)]) rjNone rjNone ""

def gj4 : GrammarJSON :=
  { name := "t", scopeName := "source.t4", fileTypes := [],
    foldingStart := "", foldingEnd := "", firstLine := "",
    repository := [], patterns := [rule4] }

def capXC : CRule := .matchR "x" none false none (some []) .nop gj4

/-- C7 grammar: empty pattern list and one repository entry. -/
def gj7 : GrammarJSON :=
  { name := "t", scopeName := "source.t7", fileTypes := [],
    foldingStart := "", foldingEnd := "", firstLine := "",
    repository := [("foo", .mk "" "" "" "" "" [] rjNone rjNone rjNone "")],
    patterns := [] }

def g7 : CGrammar :=
  { scopeName := "source.t7", fileTypes := [],
    foldingStart := none, foldingEnd := none, firstLine := none,
    repository := [("foo", .expandR "" [] gj7)],
    root := .expandR "source.t7" [] gj7 }

/-- C8 loader: one grammar registered for file type "go". -/
def L8 : Loader := ⟨[], [("go", [gjW])]⟩

/-! ### Well-formedness of the opaque regex adapter

`WfRegex` captures what oniguruma guarantees about the region returned by
a successful anchored `onig_match` at position 0: every group range lies
within the text (`beg <= end <= len`), and group 0 starts at the match
position 0. -/

def WfRegex (re : RegexFn) : Prop :=
  ∀ text gs, re text = some gs →
    (∀ r ∈ gs, r.start ≤ r.stop ∧ r.stop ≤ text.length) ∧
    (∀ g0 gs', gs = g0 :: gs' → g0.start = 0)

def WfORegex : Option RegexFn → Prop
  | none => True
  | some re => WfRegex re

/-- All regexes reachable in a rule tree are well-formed (an inductive
predicate over the rule tree). -/
inductive WfRule : CRule → Prop where
  | includeW (scopename rulename : String) (gj : GrammarJSON) :
      WfRule (.includeR scopename rulename gj)
  | expandW (name : String) (rs : List CRule) (gj : GrammarJSON)
      (h : ∀ r ∈ rs, WfRule r) : WfRule (.expandR name rs gj)
  | matchW (name : String) (pat : Option RegexFn) (neg : Bool)
      (caps : Option (List (Option CRule))) (rules : Option (List CRule))
      (op : Operation) (gj : GrammarJSON)
      (hpat : WfORegex pat)
      (hcaps : ∀ cs, caps = some cs → ∀ c ∈ cs, ∀ r, c = some r → WfRule r)
      (hrules : ∀ rs, rules = some rs → ∀ r ∈ rs, WfRule r) :
      WfRule (.matchR name pat neg caps rules op gj)

def WfRules (rs : List CRule) : Prop := ∀ r ∈ rs, WfRule r

def WfCaps (cs : List (Option CRule)) : Prop :=
  ∀ c ∈ cs, ∀ r, c = some r → WfRule r

def WfStack (s : Stack) : Prop := ∀ f ∈ s, WfRules f.rules

def WfCG (g : CGrammar) : Prop :=
  WfRule g.root ∧ ∀ p ∈ g.repository, WfRule p.2

/-- The regex compiler only produces well-formed regexes. -/
def WfRc (rc : String → Except String RegexFn) : Prop :=
  ∀ s re, rc s = .ok re → WfRegex re

/-- Every frame on the stack was pushed at or before the current offset
(capture frames carry the Go zero value 0). -/
def InvStack (s : Stack) (offset : Nat) : Prop := ∀ f ∈ s, f.offset ≤ offset

/-- Rules that are plain named matches or containers thereof: no stack
operation, non-empty scope name, no includes.  Under such rules every
consumed span carries a token (used for the amended C2). -/
inductive PlainNamed : CRule → Prop where
  | expandW (name : String) (rs : List CRule) (gj : GrammarJSON)
      (h : ∀ r ∈ rs, PlainNamed r) : PlainNamed (.expandR name rs gj)
  | matchW (name : String) (pat : Option RegexFn) (neg : Bool)
      (caps : Option (List (Option CRule))) (rules : Option (List CRule))
      (gj : GrammarJSON) (hname : name ≠ "") :
      PlainNamed (.matchR name pat neg caps rules .nop gj)

/-- Rules with no stack operation and no capture entries, names arbitrary:
under such rules the only empty-scope tokens are loop fillers (used for
the amended C3). -/
inductive PlainNoCap : CRule → Prop where
  | expandW (name : String) (rs : List CRule) (gj : GrammarJSON)
      (h : ∀ r ∈ rs, PlainNoCap r) : PlainNoCap (.expandR name rs gj)
  | matchW (name : String) (pat : Option RegexFn) (neg : Bool)
      (rules : Option (List CRule)) (gj : GrammarJSON) :
      PlainNoCap (.matchR name pat neg none rules .nop gj)

/-- The adjacent-pair ordering asserted by the spec for the reader output:
start ascending, then length ascending, then depth ascending (weakly). -/
def claimOrder (a b : Token) : Prop :=
  a.start < b.start ∨
  (a.start = b.start ∧ a.length < b.length) ∨
  (a.start = b.start ∧ a.length = b.length ∧ a.depth ≤ b.depth)

/-- Position `p` is inside the span of some emitted token. -/
def covers (toks : List Token) (p : Int) : Prop :=
  ∃ t ∈ toks, t.start ≤ p ∧ p < t.start + t.length

/-- The captures array of a matchRule (nil for other variants). -/
def matchCaptures : CRule → Option (List (Option CRule))
  | .matchR _ _ _ caps _ _ _ => caps
  | _ => none

/-- The rules slice of a matchRule (nil for other variants). -/
def matchRules : CRule → Option (List CRule)
  | .matchR _ _ _ _ rs _ _ => rs
  | _ => none

/-- Token bounds used by the soundness lemma: nonnegative start and
length, span within the first `bound` bytes. -/
def TokBounded (bound : Int) (t : Token) : Prop :=
  0 ≤ t.start ∧ 0 ≤ t.length ∧ t.start + t.length ≤ bound

instance : IsTrans Token tokenLE := by
  constructor
  intro a b c hab hbc
  unfold tokenLE CompareToken at *
  split_ifs at * <;> omega

instance : IsTotal Token tokenLE := by
  constructor
  intro a b
  unfold tokenLE CompareToken
  split_ifs <;> omega

/-! ### Compilation facts for the concrete grammars -/

theorem g6_compiled : compileGrammar rcT gj6 = .ok g6 := rfl

theorem g5_compiled : compileGrammar rcT gj5 = .ok g5 := rfl

theorem g3_compiled : compileGrammar rcT gj3 = .ok g3 := rfl

theorem g2_compiled : compileGrammar rcT gj2 = .ok g2 := rfl

theorem gW_compiled : compileGrammar rcT gjW = .ok gW := rfl

theorem g7_compiled : compileGrammar rcT gj7 = .ok g7 := rfl

/-! ### C4 — the `captures` alias on begin/end rules -/

/-- C4: the claim states that a non-empty `captures` map on a begin/end
rule is compiled and used as both the begin-side and the end-side capture
array.  The code gates on `len(j.Captures) > 0` but then compiles
`j.BeginCaptures`: on `rule4` (captures = {"1": {name:"x"}}, nil
beginCaptures) both compiled sides come out nil, while the compilation of
the `captures` map is `[nil, x]`.  The begin side is the `captures` field
of the produced push rule, the end side the `captures` field of the
synthesized pop rule at the head of its rule slice. -/
theorem c4_captures_alias_bug :
    compileRule rcT gj4 rule4 =
      .ok (CRule.matchR "" (some (litRe '(')) false none
        (some [CRule.matchR "" (some (litRe ')')) false none none .pop gj4])
        .push gj4) ∧
    compileCaptures rcT gj4 (some [("1", capX)]) = .ok (some [none, some capXC]) ∧
    (none : Option (List (Option CRule))) ≠ some [none, some capXC] :=
  ⟨rfl, rfl, fun h => Option.noConfusion h⟩

/-! ### C6 — the begin/end pairing scenario -/

/-- C6 counterexample: on input "(a)" under the block/id grammar the run
completes with exactly the three tokens below, and none of them is the
block token `[0,3)` at depth 2 demanded by the claim (the pop token is
emitted at the depth of the frame being popped, which is 3: the root
frame of `StackItem.Depth` already has depth 2). -/
theorem c6_depth_counterexample :
    tokenizeReaderM L0 rcT 50 g6 ("(a)".data) =
      some (.ok [⟨"block", 0, 3, 3⟩, ⟨"id", 1, 1, 3⟩, ⟨"block", 2, 1, 3⟩]) ∧
    ¬ ∃ t ∈ [(⟨"block", 0, 3, 3⟩ : Token), ⟨"id", 1, 1, 3⟩, ⟨"block", 2, 1, 3⟩],
        t.scope = "block" ∧ t.start = 0 ∧ t.length = 3 ∧ t.depth = 2 :=
  ⟨by decide, by decide⟩

/-- C6 amended: the emitted tokens include the block token spanning
`[0,3)` and the id token spanning `[1,2)`, both at depth 3 (the depth of
the pushed frame; the root frame has depth 2 under `StackItem.Depth`). -/
theorem c6_amended :
    tokenizeReaderM L0 rcT 50 g6 ("(a)".data) =
      some (.ok [⟨"block", 0, 3, 3⟩, ⟨"id", 1, 1, 3⟩, ⟨"block", 2, 1, 3⟩]) ∧
    (∃ t ∈ [(⟨"block", 0, 3, 3⟩ : Token), ⟨"id", 1, 1, 3⟩, ⟨"block", 2, 1, 3⟩],
        t.scope = "block" ∧ t.start = 0 ∧ t.length = 3 ∧ t.depth = 3) ∧
    (∃ t ∈ [(⟨"block", 0, 3, 3⟩ : Token), ⟨"id", 1, 1, 3⟩, ⟨"block", 2, 1, 3⟩],
        t.scope = "id" ∧ t.start = 1 ∧ t.length = 1 ∧ t.depth = 3) :=
  ⟨by decide, by decide, by decide⟩

/-! ### C8 — FromFileType lookup -/

/-- C8 counterexample: with a grammar registered for "go", the out-of-range
index -1 passes the `index >= len(grms)` guard and the lookup faults at the
negative slice index instead of returning NotFound. -/
theorem c8_negative_index_counterexample :
    fromFileType L8 rcT "go" (-1) = .error .indexFault ∧
    (Except.error CErr.indexFault ≠ (Except.error CErr.notFound : Except CErr CGrammar)) :=
  ⟨rfl, fun h => by injection h with h2; exact CErr.noConfusion h2⟩

/-- C8 amended: FromFileType returns NotFound when the extension is
unregistered or the index is at least the number of registered grammars;
for a registered extension and an index within `[0, len)` it returns the
compilation of the index-th registered grammar; a negative index with a
registered extension is unguarded and faults (Go slice-index panic)
rather than returning NotFound. -/
theorem c8_amended (l : Loader) (rc : String → Except String RegexFn)
    (ft : String) (i : Int) :
    (l.filetypes.lookup ft = none → fromFileType l rc ft i = .error .notFound) ∧
    (∀ grms, l.filetypes.lookup ft = some grms → (grms.length : Int) ≤ i →
      fromFileType l rc ft i = .error .notFound) ∧
    (∀ grms, l.filetypes.lookup ft = some grms → i < 0 →
      fromFileType l rc ft i = .error .indexFault) ∧
    (∀ grms gj, l.filetypes.lookup ft = some grms → 0 ≤ i →
      grms[i.toNat]? = some gj → fromFileType l rc ft i = compileGrammar rc gj) := by
  refine ⟨fun h => ?_, fun grms h hge => ?_, fun grms h hneg => ?_, fun grms gj h h0 hget => ?_⟩
  · simp [fromFileType, h]
  · simp only [fromFileType, h]
    rw [if_pos hge]
  · simp only [fromFileType, h]
    have h1 : ¬ ((grms.length : Int) ≤ i) := by omega
    rw [if_neg h1, dif_neg (by omega)]
  · simp only [fromFileType, h]
    obtain ⟨hlt, hv⟩ := List.getElem?_eq_some.mp hget
    have h1 : ¬ ((grms.length : Int) ≤ i) := by omega
    rw [if_neg h1, dif_pos (⟨h0, by omega⟩ : 0 ≤ i ∧ i < (grms.length : Int))]
    rw [List.get_eq_getElem, hv]

/-- C8 witness: the amended theorem applied to the concrete loader. -/
theorem c8_amended_witness :
    fromFileType L8 rcT "zz" 0 = .error .notFound :=
  (c8_amended L8 rcT "zz" 0).1 rfl

/-! ### C5 — capture handling includes group 0 -/

/-- C5 counterexample: `g5`'s only capture entry is at index 0, yet the
run on "a" emits the token with that entry's scope "zero" — the capture
loop `for i, rng := range groups` starts at group 0, contradicting "group
0 never triggers a capture-entry token".  (The third output token is the
filler produced by the capture's always-non-nil, empty child-rule slice
sub-tokenizing the captured text.) -/
theorem c5_group0_counterexample :
    tokenizeReaderM L0 rcT 50 g5 ("a".data) =
      some (.ok [⟨"", 0, 1, 0⟩, ⟨"m", 0, 1, 2⟩, ⟨"zero", 0, 1, 2⟩]) ∧
    matchCaptures m5 = some [some capZeroC] ∧
    (∃ t ∈ [(⟨"", 0, 1, 0⟩ : Token), ⟨"m", 0, 1, 2⟩, ⟨"zero", 0, 1, 2⟩],
        t.scope = "zero" ∧ t.start = 0 ∧ t.length = 1) :=
  ⟨by decide, rfl, by decide⟩

/-! ### C2 — progress and coverage counterexample -/

/-- C2 counterexample: a match rule with empty scope name consumes its
match without emitting any token: tokenizing "a" under `g2` completes
with an empty token list, so the emitted spans do not cover the 1-byte
input. -/
theorem c2_coverage_counterexample :
    tokenizeReaderM L0 rcT 50 g2 ("a".data) = some (.ok []) ∧
    ("a".data).length = 1 ∧
    ¬ covers [] 0 := by
  refine ⟨by decide, rfl, ?_⟩
  rintro ⟨t, ht, -⟩
  exact absurd ht (List.not_mem_nil t)

/-! ### C3 — filler-shape counterexample -/

/-- C3 counterexample: the nameless begin/end rule's pop token has empty
scope and length 2, so not every empty-scope token of a run is a 1-byte
filler. -/
theorem c3_length_counterexample :
    tokenizeReaderM L0 rcT 50 g3 ("()".data) = some (.ok [⟨"", 0, 2, 3⟩]) ∧
    ¬ (∀ t ∈ [(⟨"", 0, 2, 3⟩ : Token)], t.scope = "" → t.length = 1) :=
  ⟨by decide, by decide⟩


/-! ### C7 — include equivalence -/

/-- C7: a `{"include":"$self"}` rule (scope selector "$self" or empty)
evaluates exactly as the owning grammar's root pattern list, and a
`{"include":"#foo"}` rule (empty scope selector, rule name "foo")
evaluates exactly as the repository entry, in each case at the cost of
the one dereferencing step the include performs (one unit of fuel). -/
theorem c7_include_equivalence (l : Loader) (rc : String → Except String RegexFn)
    (fuel offset : Nat) (text : Str) (top : Stack) (base : CGrammar)
    (gj : GrammarJSON) (G : CGrammar) (hc : compileGrammar rc gj = .ok G) :
    (evalRule l rc (fuel + 1) offset text top base (.includeR "$self" "" gj) =
      evalRule l rc fuel offset text top base G.root) ∧
    (evalRule l rc (fuel + 1) offset text top base (.includeR "" "" gj) =
      evalRule l rc fuel offset text top base G.root) ∧
    (∀ nm r, nm ≠ "" → G.repository.lookup nm = some r →
      evalRule l rc (fuel + 1) offset text top base (.includeR "" nm gj) =
        evalRule l rc fuel offset text top base r) := by
  refine ⟨?_, ?_, fun nm r hne hlook => ?_⟩
  · simp [evalRule, hc]
  · simp [evalRule, hc]
  · simp [evalRule, hc, hne, hlook]

/-- C7 witness: the equivalence applied to the concrete grammar `g7` and
its repository entry "foo". -/
theorem c7_include_equivalence_witness :
    (evalRule L0 rcT 3 0 ("a".data) [] g7 (.includeR "$self" "" gj7) =
      evalRule L0 rcT 2 0 ("a".data) [] g7 (g7.root)) ∧
    (evalRule L0 rcT 3 0 ("a".data) [] g7 (.includeR "" "foo" gj7) =
      evalRule L0 rcT 2 0 ("a".data) [] g7 (.expandR "" [] gj7)) :=
  ⟨(c7_include_equivalence L0 rcT 2 0 ("a".data) [] g7 gj7 g7 g7_compiled).1,
   (c7_include_equivalence L0 rcT 2 0 ("a".data) [] g7 gj7 g7 g7_compiled).2.2
     "foo" (.expandR "" [] gj7) (by decide) rfl⟩

/-! ### C1 — the reader output is sorted by CompareToken -/

/-- tokenLE coincides with the adjacent-pair ordering the spec states. -/
theorem tokenLE_iff_claimOrder (a b : Token) : tokenLE a b ↔ claimOrder a b := by
  unfold tokenLE CompareToken claimOrder
  split_ifs <;> omega

/-- C1: whenever TokenizeReader completes without error, its token list is
sorted under CompareToken: each adjacent pair satisfies start strictly
ascending, or equal start and length strictly ascending, or equal start
and length and depth weakly ascending. -/
theorem c1_reader_sorted (l : Loader) (rc : String → Except String RegexFn)
    (fuel : Nat) (g : CGrammar) (input : Str) (toks : List Token)
    (h : tokenizeReaderM l rc fuel g input = some (.ok toks)) :
    toks.Chain' claimOrder := by
  unfold tokenizeReaderM at h
  rcases hr : readerGo l rc fuel g 0 [⟨[g.root], 0⟩] (splitLines input) with _ | (e | ts) <;>
    rw [hr] at h
  · exact absurd h (by simp)
  · exact absurd h (by simp)
  · simp only [Option.some.injEq, Except.ok.injEq] at h
    have hs : toks.Sorted tokenLE := by
      rw [← h]
      exact List.sorted_insertionSort tokenLE ts
    exact List.Pairwise.chain' (hs.imp fun hab => (tokenLE_iff_claimOrder _ _).mp hab)

/-- C1 witness: the sortedness of the concrete "(a)" run. -/
theorem c1_reader_sorted_witness :
    List.Chain' claimOrder
      [(⟨"block", 0, 3, 3⟩ : Token), ⟨"id", 1, 1, 3⟩, ⟨"block", 2, 1, 3⟩] :=
  c1_reader_sorted L0 rcT 50 g6 ("(a)".data)
    [⟨"block", 0, 3, 3⟩, ⟨"id", 1, 1, 3⟩, ⟨"block", 2, 1, 3⟩] (by decide)

/-! ### C5 amended — the capture loop processes every group index from 0 -/

/-- Helper: if the capture loop completes without error, then for every
index `i` with a non-empty range and a named matchRule capture entry, the
capture token is among the emitted tokens. -/
theorem evalCaptures_mem_token (l : Loader) (rc : String → Except String RegexFn)
    (base : CGrammar) :
    ∀ (fuel : Nat) (gs : List Range) (cs : List (Option CRule)) (offset : Nat)
      (text : Str) (top : Stack) (toks : List Token) (i : Nat) (rng : Range)
      (cname : String) (cpat : Option RegexFn) (cneg : Bool)
      (ccaps : Option (List (Option CRule))) (crules : Option (List CRule))
      (cop : Operation) (cgj : GrammarJSON),
      evalCaptures l rc fuel offset text top base gs cs = some (toks, none) →
      gs[i]? = some rng →
      cs[i]? = some (some (.matchR cname cpat cneg ccaps crules cop cgj)) →
      rng.len ≠ 0 → cname ≠ "" →
      (⟨cname, (offset : Int) + (rng.start : Int), rng.len, stackDepth top⟩ : Token) ∈ toks := by
  intro fuel
  induction fuel with
  | zero =>
    intro gs cs offset text top toks i rng cname cpat cneg ccaps crules cop cgj h
    simp [evalCaptures] at h
  | succ fuel ih =>
    intro gs cs offset text top toks i rng cname cpat cneg ccaps crules cop cgj
      h hg hc hlen hname
    match gs, cs with
    | [], _ => simp at hg
    | _ :: _, [] => simp at hc
    | rng0 :: gs', c0 :: cs' =>
      rw [evalCaptures.eq_def] at h
      dsimp only at h
      cases i with
      | zero =>
        simp only [List.getElem?_cons_zero, Option.some.injEq] at hg hc
        subst hg
        subst hc
        rw [if_neg hlen] at h
        simp only [ne_eq, hname, not_false_eq_true, if_pos] at h
        rcases hcr : crules with _ | rl <;> rw [hcr] at h <;> (try dsimp only at h)
        · rcases hrec : evalCaptures l rc fuel offset text top base gs' cs' with
            _ | ⟨toks', e'⟩ <;> rw [hrec] at h
          · exact absurd h (by simp)
          · simp only [Option.some.injEq, Prod.mk.injEq] at h
            rw [← h.1]
            exact List.mem_append_left _ (List.mem_singleton_self _)
        · rcases hts : tokenizeSeq l rc fuel (offset + rng0.start) (sliceR text rng0)
              (⟨rl, 0⟩ :: top) base with _ | ⟨toks2, res2⟩ <;> rw [hts] at h <;>
            (try dsimp only at h)
          · exact absurd h (by simp)
          · rcases res2 with e2 | st2 <;> (try dsimp only at h)
            · simp at h
            · rcases hrec : evalCaptures l rc fuel offset text top base gs' cs' with
                _ | ⟨toks', e'⟩ <;> rw [hrec] at h
              · exact absurd h (by simp)
              · simp only [Option.some.injEq, Prod.mk.injEq] at h
                rw [← h.1]
                exact List.mem_append_left _ (List.mem_append_left _ (List.mem_singleton_self _))
      | succ j =>
        simp only [List.getElem?_cons_succ] at hg hc
        split at h
        · exact absurd h (by simp)
        · simp at h
        · -- the step finished without error; split the recursive call
          rename_i toks0 hstep
          split at h
          · exact absurd h (by simp)
          · rename_i toks' e' hrec
            simp only [Option.some.injEq, Prod.mk.injEq] at h
            rw [← h.1]
            refine List.mem_append_right _ ?_
            exact ih gs' cs' offset text top toks' j rng cname cpat cneg ccaps crules cop cgj
              (by rw [hrec, h.2]) hg hc hlen hname

/-- C5 amended: when a (non-negated) match rule fires with groups `gs`,
capture tokens are produced for every group index `i ≥ 0` below the
capture-array length — including group 0 — with a non-empty range and a
named capture entry: the completed evaluation's output contains the
capture token for each such group. -/
theorem c5_captures_all_groups (l : Loader) (rc : String → Except String RegexFn)
    (fuel offset : Nat) (text : Str) (top : Stack) (base : CGrammar)
    (name : String) (re : RegexFn) (caps : List (Option CRule))
    (rulesOpt : Option (List CRule)) (op : Operation) (gj : GrammarJSON)
    (gs : List Range) (toks : List Token) (st : Stack) (adv : Int)
    (i : Nat) (rng : Range) (cname : String) (cpat : Option RegexFn) (cneg : Bool)
    (ccaps : Option (List (Option CRule))) (crules : Option (List CRule))
    (cop : Operation) (cgj : GrammarJSON)
    (hm : rxMatch re text = some gs)
    (h : evalRule l rc (fuel + 1) offset text top base
        (.matchR name (some re) false (some caps) rulesOpt op gj) =
      some (toks, .ok (st, adv)))
    (hg : gs[i]? = some rng)
    (hc : caps[i]? = some (some (.matchR cname cpat cneg ccaps crules cop cgj)))
    (hlen : rng.len ≠ 0) (hname : cname ≠ "") :
    (⟨cname, (offset : Int) + (rng.start : Int), rng.len, stackDepth top⟩ : Token) ∈ toks := by
  rw [evalRule.eq_def] at h
  dsimp only at h
  rw [hm] at h
  dsimp only [Option.isNone] at h
  rw [if_neg (by simp)] at h
  dsimp only [Option.getD] at h
  rcases hrec : evalCaptures l rc fuel offset text top base gs caps with
    _ | ⟨capToks, e⟩ <;> rw [hrec] at h
  · exact absurd h (by simp)
  · rcases e with _ | e
    · have hmem : (⟨cname, (offset : Int) + (rng.start : Int), rng.len,
          stackDepth top⟩ : Token) ∈ capToks :=
        evalCaptures_mem_token l rc base fuel gs caps offset text top capToks i rng
          cname cpat cneg ccaps crules cop cgj hrec hg hc hlen hname
      rcases op with _ | _ | _ <;> dsimp only at h
      · simp only [Option.some.injEq, Prod.mk.injEq] at h
        rw [← h.1]
        exact List.mem_append_right _ hmem
      · simp only [Option.some.injEq, Prod.mk.injEq] at h
        rw [← h.1]
        exact List.mem_append_right _ hmem
      · rcases top with _ | ⟨f, rest⟩ <;> dsimp only at h
        · simp at h
        · simp only [Option.some.injEq, Prod.mk.injEq] at h
          rw [← h.1]
          refine List.mem_append_left _ (List.mem_append_right _ hmem)
    · simp at h

/-- C5 witness: the amended theorem applied to the group-0 capture of the
concrete grammar `g5` on input "a". -/
theorem c5_captures_all_groups_witness :
    (⟨"zero", 0, 1, 2⟩ : Token) ∈
      [(⟨"m", 0, 1, 2⟩ : Token), ⟨"zero", 0, 1, 2⟩, ⟨"", 0, 1, 0⟩] :=
  c5_captures_all_groups L0 rcT 9 0 ("a".data) [⟨[g5.root], 0⟩] g5
    "m" (litRe 'a') [some capZeroC] none .nop gj5
    [⟨0, 1⟩] [⟨"m", 0, 1, 2⟩, ⟨"zero", 0, 1, 2⟩, ⟨"", 0, 1, 0⟩] [⟨[g5.root], 0⟩] 1
    0 ⟨0, 1⟩ "zero" none false none (some []) .nop gj5
    rfl rfl rfl rfl (by decide) (by decide)

/-! ### Well-formedness helpers -/

theorem lookup_mem {β : Type _} :
    ∀ (l : List (String × β)) (k : String) (v : β),
      l.lookup k = some v → (k, v) ∈ l
  | [], k, v, h => by simp [List.lookup] at h
  | p :: rest, k, v, h => by
    rw [List.lookup] at h
    cases hk : (k == p.1) <;> simp only [hk] at h
    · exact List.mem_cons_of_mem _ (lookup_mem rest k v h)
    · have hk' : k = p.1 := eq_of_beq hk
      cases h
      cases p
      rw [hk']
      exact List.mem_cons_self _ _

theorem invStack_mono {s : Stack} {o o' : Nat} (h : InvStack s o) (ho : o ≤ o') :
    InvStack s o' :=
  fun f hf => le_trans (h f hf) ho

/-- Elements of the capture array built by the fold in compileCaptures are
nil or one of the compiled entries. -/
theorem wfCaps_foldl_set (entries : List (Nat × CRule)) :
    ∀ (acc : List (Option CRule)),
      (∀ c ∈ acc, ∀ r, c = some r → WfRule r) →
      (∀ p ∈ entries, WfRule p.2) →
      ∀ c ∈ entries.foldl (fun res p => res.set p.1 (some p.2)) acc,
        ∀ r, c = some r → WfRule r := by
  induction entries with
  | nil =>
    intro acc hacc _ c hc r hr
    exact hacc c hc r hr
  | cons p ps ih =>
    intro acc hacc hps c hc r hr
    refine ih (acc.set p.1 (some p.2)) ?_
      (fun q hq => hps q (List.mem_cons_of_mem _ hq)) c hc r hr
    intro c' hc' r' hr'
    rcases List.mem_or_eq_of_mem_set hc' with hc' | rfl
    · exact hacc c' hc' r' hr'
    · cases hr'
      exact hps p (List.mem_cons_self _ _)

/-! ### The compiler only builds well-formed rules -/

/-- The four compilation operations produce only well-formed rules, by
strong induction on the size of the decoded input. -/
theorem wf_compile_all (rc : String → Except String RegexFn) (hrc : WfRc rc)
    (gj : GrammarJSON) :
    ∀ n : Nat,
      (∀ j : RuleJSON, sizeOf j ≤ n → ∀ r, compileRule rc gj j = .ok r → WfRule r) ∧
      (∀ js : List RuleJSON, sizeOf js ≤ n →
        ∀ rs, compileRules rc gj js = .ok rs → WfRules rs) ∧
      (∀ m : List (String × RuleJSON), sizeOf m ≤ n →
        ∀ entries, compileCapEntries rc gj m = .ok entries → ∀ p ∈ entries, WfRule p.2) ∧
      (∀ jm : Option (List (String × RuleJSON)), sizeOf jm ≤ n →
        ∀ capsRes cs, compileCaptures rc gj jm = .ok capsRes → capsRes = some cs →
          WfCaps cs) := by
  intro n
  induction n using Nat.strong_induction_on with
  | _ n ih =>
  refine ⟨fun j hsz r h => ?_, fun js hsz rs h => ?_,
    fun m hsz entries h => ?_, fun jm hsz capsRes cs h hcs => ?_⟩
  · -- compileRule
    obtain ⟨name, matchS, beginS, endS, whileS, patterns, captures,
      beginCaptures, endCaptures, includeS⟩ := j
    have hszp : sizeOf patterns < n := by
      simp only [RuleJSON.mk.sizeOf_spec] at hsz
      omega
    have hszc : sizeOf captures < n := by
      simp only [RuleJSON.mk.sizeOf_spec] at hsz
      omega
    have hszbc : sizeOf beginCaptures < n := by
      simp only [RuleJSON.mk.sizeOf_spec] at hsz
      omega
    have hszec : sizeOf endCaptures < n := by
      simp only [RuleJSON.mk.sizeOf_spec] at hsz
      omega
    rw [compileRule] at h
    by_cases h1 : includeS ≠ ""
    · rw [if_pos h1] at h
      rw [Except.ok.injEq] at h
      subst h
      exact WfRule.includeW _ _ _
    · rw [if_neg h1] at h
      by_cases h2 : matchS ≠ ""
      · rw [if_pos h2] at h
        rcases hm : rc matchS with e | pat <;> rw [hm] at h <;> (try dsimp only at h)
        · exact absurd h (by simp)
        · rcases hcap : compileCaptures rc gj captures with e | caps <;> rw [hcap] at h <;>
            (try dsimp only at h)
          · exact absurd h (by simp)
          · rw [Except.ok.injEq] at h
            subst h
            refine WfRule.matchW _ _ _ _ _ _ _ (hrc _ _ hm) ?_ (fun rs hrs => nomatch hrs)
            intro cs hcs
            exact (ih _ hszc).2.2.2 captures le_rfl caps cs hcap hcs
      · rw [if_neg h2] at h
        by_cases h3 : beginS ≠ "" ∧ (endS ≠ "" ∨ whileS ≠ "")
        · rw [if_pos h3] at h
          rcases hb : rc beginS with e | beginPat <;> rw [hb] at h <;> (try dsimp only at h)
          · exact absurd h (by simp)
          · rcases he : rc (if whileS ≠ "" then whileS else endS) with e | endPat <;>
              rw [he] at h <;> (try dsimp only at h)
            · exact absurd h (by simp)
            · by_cases h5 : 0 < (captures.elim 0 List.length)
              · rw [if_pos h5] at h
                rcases hbc : compileCaptures rc gj beginCaptures with e | c <;>
                  rw [hbc] at h <;> (try dsimp only at h)
                · exact absurd h (by simp)
                · rcases hrules : compileRules rc gj patterns with e | innerRules <;>
                    rw [hrules] at h <;> (try dsimp only at h)
                  · exact absurd h (by simp)
                  · rw [Except.ok.injEq] at h
                    subst h
                    have hcwf : ∀ cs, c = some cs → WfCaps cs :=
                      fun cs hcs => (ih _ hszbc).2.2.2 beginCaptures le_rfl c cs hbc hcs
                    refine WfRule.matchW _ _ _ _ _ _ _ (hrc _ _ hb)
                      (fun cs hcs => hcwf cs hcs) ?_
                    intro rs hrs
                    rw [Option.some.injEq] at hrs
                    subst hrs
                    intro r hr
                    rcases List.mem_cons.mp hr with rfl | hr
                    · exact WfRule.matchW _ _ _ _ _ _ _ (hrc _ _ he)
                        (fun cs hcs => hcwf cs hcs) (fun rs hrs => nomatch hrs)
                    · exact (ih _ hszp).2.1 patterns le_rfl innerRules hrules r hr
              · rw [if_neg h5] at h
                rcases hbc : compileCaptures rc gj beginCaptures with e | bc <;>
                  rw [hbc] at h <;> (try dsimp only at h)
                · exact absurd h (by simp)
                · rcases hec : compileCaptures rc gj endCaptures with e | ec <;>
                    rw [hec] at h <;> (try dsimp only at h)
                  · exact absurd h (by simp)
                  · rcases hrules : compileRules rc gj patterns with e | innerRules <;>
                      rw [hrules] at h <;> (try dsimp only at h)
                    · exact absurd h (by simp)
                    · rw [Except.ok.injEq] at h
                      subst h
                      refine WfRule.matchW _ _ _ _ _ _ _ (hrc _ _ hb)
                        (fun cs hcs => (ih _ hszbc).2.2.2 beginCaptures le_rfl _ cs hbc hcs)
                        ?_
                      intro rs hrs
                      rw [Option.some.injEq] at hrs
                      subst hrs
                      intro r hr
                      rcases List.mem_cons.mp hr with rfl | hr
                      · exact WfRule.matchW _ _ _ _ _ _ _ (hrc _ _ he)
                          (fun cs hcs => (ih _ hszec).2.2.2 endCaptures le_rfl _ cs hec hcs)
                          (fun rs hrs => nomatch hrs)
                      · exact (ih _ hszp).2.1 patterns le_rfl innerRules hrules r hr
        · rw [if_neg h3] at h
          by_cases h4 : beginS ≠ "" ∨ endS ≠ "" ∨ whileS ≠ ""
          · rw [if_pos h4] at h
            exact absurd h (by simp)
          · rw [if_neg h4] at h
            rcases hrules : compileRules rc gj patterns with e | rs' <;> rw [hrules] at h
            · exact absurd h (by simp)
            · rw [Except.ok.injEq] at h
              subst h
              exact WfRule.expandW _ _ _ ((ih _ hszp).2.1 patterns le_rfl rs' hrules)
  · -- compileRules
    rcases js with _ | ⟨j, js⟩
    · rw [compileRules] at h
      rw [Except.ok.injEq] at h
      subst h
      exact fun r hr => absurd hr (List.not_mem_nil r)
    · have hszj : sizeOf j < n := by
        simp only [List.cons.sizeOf_spec] at hsz
        omega
      have hszjs : sizeOf js < n := by
        simp only [List.cons.sizeOf_spec] at hsz
        omega
      rw [compileRules] at h
      rcases hr : compileRule rc gj j with e | r <;> rw [hr] at h
      · exact absurd h (by simp)
      · rcases hrs : compileRules rc gj js with e | rs' <;> rw [hrs] at h
        · exact absurd h (by simp)
        · rw [Except.ok.injEq] at h
          subst h
          intro r' hr'
          rcases List.mem_cons.mp hr' with rfl | hr'
          · exact (ih _ hszj).1 j le_rfl r' hr
          · exact (ih _ hszjs).2.1 js le_rfl rs' hrs r' hr' 
  · -- compileCapEntries
    rcases m with _ | ⟨⟨num, jp⟩, rest⟩
    · rw [compileCapEntries] at h
      rw [Except.ok.injEq] at h
      subst h
      simp
    · obtain ⟨cname, m2, b2, e2, w2, cpatterns, c2, bc2, ec2, i2⟩ := jp
      have hszcp : sizeOf cpatterns < n := by
        simp only [List.cons.sizeOf_spec, Prod.mk.sizeOf_spec,
          RuleJSON.mk.sizeOf_spec] at hsz
        omega
      have hszrest : sizeOf rest < n := by
        simp only [List.cons.sizeOf_spec] at hsz
        omega
      rw [compileCapEntries] at h
      rcases hk : parseCapKey num with e | i <;> rw [hk] at h <;> (try dsimp only at h)
      · exact absurd h (by simp)
      · rcases hcr : compileRules rc gj cpatterns with e | crules <;> rw [hcr] at h <;>
          (try dsimp only at h)
        · exact absurd h (by simp)
        · rcases hrest : compileCapEntries rc gj rest with e | others <;> rw [hrest] at h
          · exact absurd h (by simp)
          · rw [Except.ok.injEq] at h
            subst h
            intro p hp
            rcases List.mem_cons.mp hp with rfl | hp
            · refine WfRule.matchW _ _ _ _ _ _ _ trivial (fun cs hcs => nomatch hcs) ?_
              intro rs hrs
              rw [Option.some.injEq] at hrs
              subst hrs
              exact (ih _ hszcp).2.1 cpatterns le_rfl crules hcr
            · exact (ih _ hszrest).2.2.1 rest le_rfl others hrest p hp
  · -- compileCaptures
    rcases jm with _ | m
    · rw [compileCaptures] at h
      rw [Except.ok.injEq] at h
      subst h
      exact absurd hcs (by simp)
    · have hszm : sizeOf m < n := by
        simp only [Option.some.sizeOf_spec] at hsz
        omega
      rw [compileCaptures] at h
      rcases hmax : maxCapKey m with e | maxc <;> rw [hmax] at h
      · exact absurd h (by simp)
      · rcases hent : compileCapEntries rc gj m with e | entries <;> rw [hent] at h
        · exact absurd h (by simp)
        · rw [Except.ok.injEq] at h
          subst h
          rw [Option.some.injEq] at hcs
          subst hcs
          have hwf := (ih _ hszm).2.2.1 m le_rfl entries hent
          refine wfCaps_foldl_set entries (List.replicate (maxc + 1) none) ?_ hwf
          intro c hc r hr
          rw [List.eq_of_mem_replicate hc] at hr
          exact absurd hr (by simp)

/-- compileRule produces a well-formed rule. -/
theorem wf_compileRule (rc : String → Except String RegexFn) (hrc : WfRc rc)
    (gj : GrammarJSON) (j : RuleJSON) (r : CRule) (h : compileRule rc gj j = .ok r) :
    WfRule r :=
  (wf_compile_all rc hrc gj (sizeOf j)).1 j le_rfl r h

/-- compileRules produces well-formed rules. -/
theorem wf_compileRules (rc : String → Except String RegexFn) (hrc : WfRc rc)
    (gj : GrammarJSON) (js : List RuleJSON) (rs : List CRule)
    (h : compileRules rc gj js = .ok rs) : WfRules rs :=
  (wf_compile_all rc hrc gj (sizeOf js)).2.1 js le_rfl rs h

/-- The repository loop produces well-formed rules. -/
theorem wf_compileRepo (rc : String → Except String RegexFn) (hrc : WfRc rc)
    (gj : GrammarJSON) :
    ∀ (m : List (String × RuleJSON)) (repo : List (String × CRule)),
      compileRepo rc gj m = .ok repo → ∀ p ∈ repo, WfRule p.2
  | [], repo, h => by
    cases h
    simp
  | (name, j) :: rest, repo, h => by
    rw [compileRepo] at h
    rcases hr : compileRule rc gj j with e | r <;> rw [hr] at h
    · exact absurd h (by simp)
    · rcases hrest : compileRepo rc gj rest with e | repo' <;> rw [hrest] at h
      · exact absurd h (by simp)
      · cases h
        intro p hp
        rcases List.mem_cons.mp hp with rfl | hp
        · exact wf_compileRule rc hrc gj j r hr
        · exact wf_compileRepo rc hrc gj rest repo' hrest p hp

/-- CompileGrammar produces a well-formed grammar. -/
theorem wf_compileGrammar (rc : String → Except String RegexFn) (hrc : WfRc rc)
    (gj : GrammarJSON) (G : CGrammar) (h : compileGrammar rc gj = .ok G) :
    WfCG G := by
  rw [compileGrammar] at h
  rcases h1 : compileOptRegex rc gj.foldingStart with e | fs <;> rw [h1] at h
  · exact absurd h (by simp)
  rcases h2 : compileOptRegex rc gj.foldingEnd with e | fe <;> rw [h2] at h
  · exact absurd h (by simp)
  rcases h3 : compileOptRegex rc gj.firstLine with e | fl <;> rw [h3] at h
  · exact absurd h (by simp)
  rcases h4 : compileRules rc gj gj.patterns with e | rules <;> rw [h4] at h
  · exact absurd h (by simp)
  rcases h5 : compileRepo rc gj gj.repository with e | repo <;> rw [h5] at h
  · exact absurd h (by simp)
  cases h
  exact ⟨WfRule.expandW _ _ _ (wf_compileRules rc hrc gj gj.patterns rules h4),
    wf_compileRepo rc hrc gj gj.repository repo h5⟩

/-! ### Soundness of the evaluator: advance is nonnegative, tokens are
within bounds (claims C9 and C10) -/

theorem sliceR_length (text : Str) (rng : Range) :
    (sliceR text rng).length = min (rng.stop - rng.start) (text.length - rng.start) := by
  simp [sliceR]

/-- The final op-switch of matchRule.evaluate, factored out: given bounded
name/capture tokens and a bounded match length, all emitted tokens are
bounded and a successful result has nonnegative advance and preserves the
stack invariants. -/
theorem matchCapFinish (l : Loader) (rc : String → Except String RegexFn)
    (base : CGrammar) (fuel : Nat)
    (IH3 : ∀ (offset : Nat) (text : Str) (top : Stack) (gs : List Range)
      (cs : List (Option CRule)) (toks : List Token) (e : Option EvalErr),
      (∀ g ∈ gs, g.start ≤ g.stop ∧ g.stop ≤ text.length) → WfCaps cs →
      WfStack top → InvStack top offset →
      evalCaptures l rc fuel offset text top base gs cs = some (toks, e) →
      ∀ t ∈ toks, TokBounded ((offset : Int) + text.length) t)
    (offset : Nat) (text : Str) (top : Stack)
    (gs : List Range) (cs : List (Option CRule)) (nameToks : List Token)
    (nm : String) (length : Int) (rulesOpt : Option (List CRule)) (op : Operation)
    (toks : List Token) (res : Except EvalErr (Stack × Int))
    (hh : (match evalCaptures l rc fuel offset text top base gs cs with
          | none => none
          | some (capToks, some e) => some (nameToks ++ capToks, .error e)
          | some (capToks, none) =>
            match op with
            | .nop => some (nameToks ++ capToks, .ok (top, length))
            | .push =>
              some (nameToks ++ capToks,
                .ok (⟨rulesOpt.getD [], offset⟩ :: top, length))
            | .pop =>
              match top with
              | [] => some (nameToks ++ capToks, .error .stackFault)
              | f :: rest =>
                some (nameToks ++ capToks ++
                  [⟨nm, (f.offset : Int),
                    length + (offset : Int) - (f.offset : Int), stackDepth top⟩],
                  .ok (rest, length))) = some (toks, res))
    (hgs : ∀ g ∈ gs, g.start ≤ g.stop ∧ g.stop ≤ text.length)
    (hcs : WfCaps cs) (hw : WfStack top) (hinv : InvStack top offset)
    (hnt : ∀ t ∈ nameToks, TokBounded ((offset : Int) + text.length) t)
    (hlen : 0 ≤ length ∧ length ≤ (text.length : Int))
    (hwr : WfRules (rulesOpt.getD [])) :
    (∀ t ∈ toks, TokBounded ((offset : Int) + text.length) t) ∧
    (∀ top' adv, res = .ok (top', adv) →
      0 ≤ adv ∧ adv ≤ (text.length : Int) ∧ WfStack top' ∧ InvStack top' offset) := by
  rcases hcap : evalCaptures l rc fuel offset text top base gs cs with _ | ⟨capToks, e⟩ <;>
    rw [hcap] at hh
  · exact absurd hh (by simp)
  · have hcb := IH3 offset text top gs cs capToks e hgs hcs hw hinv hcap
    rcases e with _ | e
    · rcases op <;> dsimp only at hh
      · -- nop
        simp only [Option.some.injEq, Prod.mk.injEq] at hh
        obtain ⟨h1, h2⟩ := hh
        subst h1
        subst h2
        refine ⟨fun t ht => ?_, fun top' adv hres => ?_⟩
        · rcases List.mem_append.mp ht with ht | ht
          · exact hnt t ht
          · exact hcb t ht
        · rw [Except.ok.injEq, Prod.mk.injEq] at hres
          obtain ⟨h3, h4⟩ := hres
          subst h3
          subst h4
          exact ⟨hlen.1, hlen.2, hw, hinv⟩
      · -- push
        simp only [Option.some.injEq, Prod.mk.injEq] at hh
        obtain ⟨h1, h2⟩ := hh
        subst h1
        subst h2
        refine ⟨fun t ht => ?_, fun top' adv hres => ?_⟩
        · rcases List.mem_append.mp ht with ht | ht
          · exact hnt t ht
          · exact hcb t ht
        · rw [Except.ok.injEq, Prod.mk.injEq] at hres
          obtain ⟨h3, h4⟩ := hres
          subst h3
          subst h4
          refine ⟨hlen.1, hlen.2, ?_, ?_⟩
          · intro f hf
            rcases List.mem_cons.mp hf with rfl | hf
            · exact hwr
            · exact hw f hf
          · intro f hf
            rcases List.mem_cons.mp hf with rfl | hf
            · exact le_refl _
            · exact hinv f hf
      · -- pop
        rcases top with _ | ⟨f, rest⟩ <;> dsimp only at hh
        · simp only [Option.some.injEq, Prod.mk.injEq] at hh
          obtain ⟨h1, h2⟩ := hh
          subst h1
          subst h2
          refine ⟨fun t ht => ?_, fun top' adv hres => nomatch hres⟩
          rcases List.mem_append.mp ht with ht | ht
          · exact hnt t ht
          · exact hcb t ht
        · simp only [Option.some.injEq, Prod.mk.injEq] at hh
          obtain ⟨h1, h2⟩ := hh
          subst h1
          subst h2
          have hfo : f.offset ≤ offset := hinv f (List.mem_cons_self _ _)
          refine ⟨fun t ht => ?_, fun top' adv hres => ?_⟩
          · rcases List.mem_append.mp ht with ht | ht
            · rcases List.mem_append.mp ht with ht | ht
              · exact hnt t ht
              · exact hcb t ht
            · rw [List.mem_singleton.mp ht]
              refine ⟨by positivity, by push_cast; omega, by push_cast; omega⟩
          · rw [Except.ok.injEq, Prod.mk.injEq] at hres
            obtain ⟨h3, h4⟩ := hres
            subst h3
            subst h4
            exact ⟨hlen.1, hlen.2, fun f' hf' => hw f' (List.mem_cons_of_mem _ hf'),
              fun f' hf' => hinv f' (List.mem_cons_of_mem _ hf')⟩
    · -- capture-loop error: tokens so far, error result
      simp only [Option.some.injEq, Prod.mk.injEq] at hh
      obtain ⟨h1, h2⟩ := hh
      subst h1
      subst h2
      refine ⟨fun t ht => ?_, fun top' adv hres => nomatch hres⟩
      rcases List.mem_append.mp ht with ht | ht
      · exact hnt t ht
      · exact hcb t ht

theorem tokBounded_mono {b b2 : Int} {t : Token} (h : TokBounded b t) (hb : b ≤ b2) :
    TokBounded b2 t :=
  ⟨h.1, h.2.1, le_trans h.2.2 hb⟩

/-- Soundness of the evaluator, by induction on fuel: every emitted token
has nonnegative start and length and lies within `offset + len(text)`; a
successful rule evaluation returns a nonnegative advance of at most
`len(text)` and preserves well-formedness and the frame-offset invariant
of the stack. -/
theorem evalSound (l : Loader) (rc : String → Except String RegexFn)
    (base : CGrammar) (hrc : WfRc rc) (hbase : WfCG base) :
    ∀ fuel : Nat,
      (∀ (offset : Nat) (text : Str) (top : Stack) (r : CRule) (toks : List Token)
        (res : Except EvalErr (Stack × Int)),
        WfRule r → WfStack top → InvStack top offset →
        evalRule l rc fuel offset text top base r = some (toks, res) →
        (∀ t ∈ toks, TokBounded ((offset : Int) + text.length) t) ∧
        (∀ top2 adv, res = .ok (top2, adv) →
          0 ≤ adv ∧ adv ≤ (text.length : Int) ∧ WfStack top2 ∧ InvStack top2 offset)) ∧
      (∀ (offset : Nat) (text : Str) (top : Stack) (rules : List CRule)
        (toks : List Token) (res : Except EvalErr (Stack × Int)),
        WfRules rules → WfStack top → InvStack top offset →
        tryRules l rc fuel offset text top base rules = some (toks, res) →
        (∀ t ∈ toks, TokBounded ((offset : Int) + text.length) t) ∧
        (∀ top2 adv, res = .ok (top2, adv) →
          0 ≤ adv ∧ adv ≤ (text.length : Int) ∧ WfStack top2 ∧ InvStack top2 offset)) ∧
      (∀ (offset : Nat) (text : Str) (top : Stack) (gs : List Range)
        (cs : List (Option CRule)) (toks : List Token) (e : Option EvalErr),
        (∀ g ∈ gs, g.start ≤ g.stop ∧ g.stop ≤ text.length) → WfCaps cs →
        WfStack top → InvStack top offset →
        evalCaptures l rc fuel offset text top base gs cs = some (toks, e) →
        ∀ t ∈ toks, TokBounded ((offset : Int) + text.length) t) ∧
      (∀ (offset : Nat) (text : Str) (top : Stack) (toks : List Token)
        (res : Except EvalErr Stack),
        WfStack top → InvStack top offset →
        tokenizeSeq l rc fuel offset text top base = some (toks, res) →
        (∀ t ∈ toks, TokBounded ((offset : Int) + text.length) t) ∧
        (∀ top2, res = .ok top2 → WfStack top2 ∧ InvStack top2 (offset + text.length))) := by
  intro fuel
  induction fuel with
  | zero =>
    refine ⟨fun o tx tp r toks res _ _ _ h => ?_, fun o tx tp rs toks res _ _ _ h => ?_,
      fun o tx tp gs cs toks e _ _ _ _ h => ?_, fun o tx tp toks res _ _ h => ?_⟩
    · rw [evalRule.eq_def] at h
      exact Option.noConfusion h
    · rw [tryRules.eq_def] at h
      exact Option.noConfusion h
    · rw [evalCaptures.eq_def] at h
      exact Option.noConfusion h
    · rw [tokenizeSeq.eq_def] at h
      exact Option.noConfusion h
  | succ fuel ih =>
    obtain ⟨IH1, IH2, IH3, IH4⟩ := ih
    refine ⟨?_, ?_, ?_, ?_⟩
    · -- evalRule
      intro offset text top r toks res hwr hw hinv h
      rw [evalRule.eq_def] at h
      dsimp only at h
      rcases r with ⟨scopename, rulename, gj⟩ | ⟨nm, rules, gj⟩ |
        ⟨nm, pat, negate, captures, rulesOpt, op, gj⟩ <;> (try dsimp only at h)
      · -- includeRule.evaluate
        have hgw : ∀ g, (if scopename = "" ∨ scopename = "$self" then compileGrammar rc gj
            else if scopename = "$base" then Except.ok base
            else fromScope l rc scopename) = .ok g → WfCG g := by
          intro g hg
          split_ifs at hg
          · exact wf_compileGrammar rc hrc gj g hg
          · rw [Except.ok.injEq] at hg
            subst hg
            exact hbase
          · rw [fromScope] at hg
            rcases hlk : l.scopes.lookup scopename with _ | gj2 <;> rw [hlk] at hg
            · exact absurd hg (by simp)
            · exact wf_compileGrammar rc hrc gj2 g hg
        rcases hog : (if scopename = "" ∨ scopename = "$self" then compileGrammar rc gj
            else if scopename = "$base" then Except.ok base
            else fromScope l rc scopename) with eC | g <;> rw [hog] at h <;>
          (try dsimp only at h)
        · simp only [Option.some.injEq, Prod.mk.injEq] at h
          obtain ⟨h1, h2⟩ := h
          subst h1
          subst h2
          exact ⟨by simp, fun top2 adv hres => nomatch hres⟩
        · have hgwf := hgw g hog
          by_cases hrn : rulename = ""
          · rw [if_pos hrn] at h
            exact IH1 offset text top g.root toks res hgwf.1 hw hinv h
          · rw [if_neg hrn] at h
            rcases hlk : g.repository.lookup rulename with _ | r2 <;> rw [hlk] at h
            · simp only [Option.some.injEq, Prod.mk.injEq] at h
              obtain ⟨h1, h2⟩ := h
              subst h1
              subst h2
              exact ⟨by simp, fun top2 adv hres => nomatch hres⟩
            · exact IH1 offset text top r2 toks res
                (hgwf.2 (rulename, r2) (lookup_mem _ _ _ hlk)) hw hinv h
      · -- expandRule.evaluate
        cases hwr with
        | expandW _ _ _ hrs =>
          exact IH2 offset text top rules toks res hrs hw hinv h
      · -- matchRule.evaluate
        rcases pat with _ | re <;> (try dsimp only at h)
        · simp only [Option.some.injEq, Prod.mk.injEq] at h
          obtain ⟨h1, h2⟩ := h
          subst h1
          subst h2
          exact ⟨by simp, fun top2 adv hres => nomatch hres⟩
        · have hre : WfRegex re := by
            cases hwr with
            | matchW _ _ _ _ _ _ _ hp _ _ => exact hp
          have hwcaps : WfCaps (captures.getD []) := by
            cases hwr with
            | matchW _ _ _ _ _ _ _ _ hcp _ =>
              rcases captures with _ | cs
              · intro c hc
                exact absurd hc (List.not_mem_nil c)
              · exact hcp cs rfl
          have hwrules : WfRules (rulesOpt.getD []) := by
            cases hwr with
            | matchW _ _ _ _ _ _ _ _ _ hrl =>
              rcases rulesOpt with _ | rs
              · intro r2 hr2
                exact absurd hr2 (List.not_mem_nil r2)
              · exact hrl rs rfl
          by_cases hcnd : (rxMatch re text).isNone ≠ negate
          · rw [if_pos hcnd] at h
            simp only [Option.some.injEq, Prod.mk.injEq] at h
            obtain ⟨h1, h2⟩ := h
            subst h1
            subst h2
            refine ⟨by simp, fun top2 adv hres => ?_⟩
            rw [Except.ok.injEq, Prod.mk.injEq] at hres
            obtain ⟨h3, h4⟩ := hres
            subst h3
            subst h4
            exact ⟨le_refl 0, by positivity, hw, hinv⟩
          · rw [if_neg hcnd] at h
            rcases hrx : rxMatch re text with _ | gs0 <;> rw [hrx] at h <;>
              simp only [Option.getD] at h
            · -- no match but negate: groups is empty
              refine matchCapFinish l rc base fuel IH3 offset text top [] (captures.getD [])
                _ nm 0 rulesOpt op toks res h (by simp) hwcaps hw hinv ?_
                ⟨le_refl 0, by positivity⟩ hwrules
              split
              · intro t ht
                rw [List.mem_singleton.mp ht]
                exact ⟨by positivity, by norm_num, by push_cast; omega⟩
              · simp
            · -- a match: bounds come from the regex well-formedness
              have hgs0 : re text = some gs0 := by
                rw [rxMatch] at hrx
                by_cases hemp : text.isEmpty
                · rw [if_pos hemp] at hrx
                  exact absurd hrx (by simp)
                · rwa [if_neg hemp] at hrx
              have hgb := (hre text gs0 hgs0).1
              rcases gs0 with _ | ⟨g0, grest⟩ <;> (try dsimp only at h)
              · -- empty groups slice: zero-length token
                refine matchCapFinish l rc base fuel IH3 offset text top [] (captures.getD [])
                  _ nm 0 rulesOpt op toks res h (by simp) hwcaps hw hinv ?_
                  ⟨le_refl 0, by positivity⟩ hwrules
                split
                · intro t ht
                  rw [List.mem_singleton.mp ht]
                  exact ⟨by positivity, by norm_num, by push_cast; omega⟩
                · simp
              · have hg0 := hgb g0 (List.mem_cons_self _ _)
                have hg0s : g0.start = 0 := (hre text (g0 :: grest) hgs0).2 g0 grest rfl
                refine matchCapFinish l rc base fuel IH3 offset text top (g0 :: grest)
                  (captures.getD []) _ nm g0.len rulesOpt op toks res h hgb hwcaps hw hinv ?_
                  ⟨by rw [Range.len]; omega, by rw [Range.len]; omega⟩ hwrules
                split
                · intro t ht
                  rw [List.mem_singleton.mp ht]
                  dsimp only [TokBounded]
                  simp only [Range.len]
                  omega
                · simp

    · -- tryRules
      intro offset text top rules toks res hwr hw hinv h
      rw [tryRules.eq_def] at h
      dsimp only at h
      rcases rules with _ | ⟨r, rs⟩ <;> dsimp only at h
      · simp only [Option.some.injEq, Prod.mk.injEq] at h
        obtain ⟨h1, h2⟩ := h
        subst h1
        subst h2
        refine ⟨by simp, fun top2 adv hres => ?_⟩
        rw [Except.ok.injEq, Prod.mk.injEq] at hres
        obtain ⟨h3, h4⟩ := hres
        subst h3
        subst h4
        exact ⟨le_refl 0, by positivity, hw, hinv⟩
      · rcases he : evalRule l rc fuel offset text top base r with _ | ⟨toks1, res1⟩ <;>
          rw [he] at h
        · exact absurd h (by simp)
        · have hr1 := IH1 offset text top r toks1 res1 (hwr r (List.mem_cons_self _ _)) hw hinv he
          rcases res1 with e1 | ⟨top1, adv1⟩ <;> dsimp only at h
          · simp only [Option.some.injEq, Prod.mk.injEq] at h
            obtain ⟨h1, h2⟩ := h
            subst h1
            subst h2
            exact ⟨hr1.1, fun top2 adv hres => nomatch hres⟩
          · obtain ⟨hadv0, hadvle, hw1, hinv1⟩ := hr1.2 top1 adv1 rfl
            by_cases hz : adv1 ≠ 0
            · rw [if_pos hz] at h
              simp only [Option.some.injEq, Prod.mk.injEq] at h
              obtain ⟨h1, h2⟩ := h
              subst h1
              subst h2
              refine ⟨hr1.1, fun top2 adv hres => ?_⟩
              rw [Except.ok.injEq, Prod.mk.injEq] at hres
              obtain ⟨h3, h4⟩ := hres
              subst h3
              subst h4
              exact ⟨hadv0, hadvle, hw1, hinv1⟩
            · rw [if_neg hz] at h
              rcases ht : tryRules l rc fuel offset text top1 base rs with _ | ⟨toks2, res2⟩ <;>
                rw [ht] at h
              · exact absurd h (by simp)
              · have hr2 := IH2 offset text top1 rs toks2 res2
                  (fun r2 hr2 => hwr r2 (List.mem_cons_of_mem _ hr2)) hw1 hinv1 ht
                simp only [Option.some.injEq, Prod.mk.injEq] at h
                obtain ⟨h1, h2⟩ := h
                subst h1
                subst h2
                refine ⟨fun t ht2 => ?_, hr2.2⟩
                rcases List.mem_append.mp ht2 with ht2 | ht2
                · exact hr1.1 t ht2
                · exact hr2.1 t ht2
    · -- evalCaptures
      intro offset text top gs cs toks e hgs hcs hw hinv h
      rw [evalCaptures.eq_def] at h
      dsimp only at h
      rcases gs with _ | ⟨rng, gs2⟩
      ·
        simp only [Option.some.injEq, Prod.mk.injEq] at h
        obtain ⟨h1, h2⟩ := h
        subst h1
        simp
      · rcases cs with _ | ⟨c, cs2⟩
        · (try dsimp only at h)
          simp only [Option.some.injEq, Prod.mk.injEq] at h
          obtain ⟨h1, h2⟩ := h
          subst h1
          simp
        · (try dsimp only at h)
          have hrngb := hgs rng (List.mem_cons_self _ _)
          have htail : ∀ (toks3 : List Token) (e3 : Option EvalErr),
              evalCaptures l rc fuel offset text top base gs2 cs2 = some (toks3, e3) →
              ∀ t ∈ toks3, TokBounded ((offset : Int) + text.length) t :=
            fun toks3 e3 hrec =>
              IH3 offset text top gs2 cs2 toks3 e3
                (fun g hg => hgs g (List.mem_cons_of_mem _ hg))
                (fun c2 hc2 => hcs c2 (List.mem_cons_of_mem _ hc2)) hw hinv hrec
          by_cases hz0 : rng.len = 0
          · rw [if_pos hz0] at h
            (try dsimp only at h)
            rcases hrec : evalCaptures l rc fuel offset text top base gs2 cs2 with
              _ | ⟨toks3, e3⟩ <;> rw [hrec] at h
            · exact absurd h (by simp)
            · simp only [Option.some.injEq, Prod.mk.injEq] at h
              obtain ⟨h1, h2⟩ := h
              subst h1
              intro t ht
              rcases List.mem_append.mp ht with ht | ht
              · exact absurd ht (List.not_mem_nil t)
              · exact htail toks3 e3 hrec t ht
          · rw [if_neg hz0] at h
            rcases c with _ | c2
            · (try dsimp only at h)
              rcases hrec : evalCaptures l rc fuel offset text top base gs2 cs2 with
                _ | ⟨toks3, e3⟩ <;> rw [hrec] at h
              · exact absurd h (by simp)
              · simp only [Option.some.injEq, Prod.mk.injEq] at h
                obtain ⟨h1, h2⟩ := h
                subst h1
                intro t ht
                rcases List.mem_append.mp ht with ht | ht
                · exact absurd ht (List.not_mem_nil t)
                · exact htail toks3 e3 hrec t ht
            · rcases c2 with ⟨s1, s2, g1⟩ | ⟨n1, rs1, g1⟩ |
                ⟨cname, cpat, cneg, ccaps, crules, cop, cgj⟩ <;> (try dsimp only at h)
              · rcases hrec : evalCaptures l rc fuel offset text top base gs2 cs2 with
                  _ | ⟨toks3, e3⟩ <;> rw [hrec] at h
                · exact absurd h (by simp)
                · simp only [Option.some.injEq, Prod.mk.injEq] at h
                  obtain ⟨h1, h2⟩ := h
                  subst h1
                  intro t ht
                  rcases List.mem_append.mp ht with ht | ht
                  · exact absurd ht (List.not_mem_nil t)
                  · exact htail toks3 e3 hrec t ht
              · rcases hrec : evalCaptures l rc fuel offset text top base gs2 cs2 with
                  _ | ⟨toks3, e3⟩ <;> rw [hrec] at h
                · exact absurd h (by simp)
                · simp only [Option.some.injEq, Prod.mk.injEq] at h
                  obtain ⟨h1, h2⟩ := h
                  subst h1
                  intro t ht
                  rcases List.mem_append.mp ht with ht | ht
                  · exact absurd ht (List.not_mem_nil t)
                  · exact htail toks3 e3 hrec t ht
              · -- matchRule capture entry
                have ht1 : ∀ t ∈ (if cname ≠ "" then
                    [(⟨cname, (offset : Int) + (rng.start : Int), rng.len,
                      stackDepth top⟩ : Token)] else []),
                    TokBounded ((offset : Int) + text.length) t := by
                  split
                  · intro t ht
                    rw [List.mem_singleton.mp ht]
                    refine ⟨by positivity, ?_, ?_⟩
                    · rw [Range.len]
                      push_cast
                      omega
                    · rw [Range.len]
                      push_cast
                      omega
                  · simp
                rcases crules with _ | rl <;> (try dsimp only at h)
                · rcases hrec : evalCaptures l rc fuel offset text top base gs2 cs2 with
                    _ | ⟨toks3, e3⟩ <;> rw [hrec] at h
                  · exact absurd h (by simp)
                  · simp only [Option.some.injEq, Prod.mk.injEq] at h
                    obtain ⟨h1, h2⟩ := h
                    subst h1
                    intro t ht
                    rcases List.mem_append.mp ht with ht | ht
                    · exact ht1 t ht
                    · exact htail toks3 e3 hrec t ht
                · rcases hts2 : tokenizeSeq l rc fuel (offset + rng.start) (sliceR text rng)
                      (⟨rl, 0⟩ :: top) base with _ | ⟨toks2, res2⟩ <;> rw [hts2] at h
                  · exact absurd h (by simp)
                  · have hwrl : WfRules rl := by
                      have hwfc := hcs (some (.matchR cname cpat cneg ccaps (some rl) cop cgj))
                        (List.mem_cons_self _ _) _ rfl
                      cases hwfc with
                      | matchW _ _ _ _ _ _ _ hp hcp hrl =>
                        exact fun r2 hr2 => hrl rl rfl r2 hr2
                    have h2 := IH4 (offset + rng.start) (sliceR text rng) (⟨rl, 0⟩ :: top)
                      toks2 res2
                      (fun f hf => by
                        rcases List.mem_cons.mp hf with rfl | hf
                        · exact hwrl
                        · exact hw f hf)
                      (fun f hf => by
                        rcases List.mem_cons.mp hf with rfl | hf
                        · exact Nat.zero_le _
                        · exact le_trans (hinv f hf) (by omega)) hts2
                    have hble : ((offset + rng.start : Nat) : Int) +
                        (sliceR text rng).length ≤ (offset : Int) + text.length := by
                      rw [sliceR_length]
                      push_cast
                      omega
                    rcases res2 with e2 | st2 <;> (try dsimp only at h)
                    · -- sub-tokenization error aborts the loop
                      simp only [Option.some.injEq, Prod.mk.injEq] at h
                      obtain ⟨h1, h3⟩ := h
                      subst h1
                      intro t ht
                      rcases List.mem_append.mp ht with ht | ht
                      · exact ht1 t ht
                      · exact tokBounded_mono (h2.1 t ht) hble
                    · rcases hrec : evalCaptures l rc fuel offset text top base gs2 cs2 with
                        _ | ⟨toks3, e3⟩ <;> rw [hrec] at h
                      · exact absurd h (by simp)
                      · simp only [Option.some.injEq, Prod.mk.injEq] at h
                        obtain ⟨h1, h3⟩ := h
                        subst h1
                        intro t ht
                        rcases List.mem_append.mp ht with ht | ht
                        · rcases List.mem_append.mp ht with ht | ht
                          · exact ht1 t ht
                          · exact tokBounded_mono (h2.1 t ht) hble
                        · exact htail toks3 e3 hrec t ht
    · -- tokenizeSeq
      intro offset text top toks res hw hinv h
      rw [tokenizeSeq.eq_def] at h
      dsimp only at h
      rcases text with _ | ⟨ch, text2⟩ <;> dsimp only at h
      · simp only [Option.some.injEq, Prod.mk.injEq] at h
        obtain ⟨h1, h2⟩ := h
        subst h1
        subst h2
        refine ⟨by simp, fun top2 hres => ?_⟩
        rw [Except.ok.injEq] at hres
        subst hres
        exact ⟨hw, by simpa using hinv⟩
      · rcases top with _ | ⟨f, tops⟩ <;> dsimp only at h
        · simp only [Option.some.injEq, Prod.mk.injEq] at h
          obtain ⟨h1, h2⟩ := h
          subst h1
          subst h2
          exact ⟨by simp, fun top2 hres => nomatch hres⟩
        · rcases htr : tryRules l rc fuel offset (ch :: text2) (f :: tops) base f.rules with
            _ | ⟨toks1, res1⟩ <;> rw [htr] at h
          · exact absurd h (by simp)
          · have h1 := IH2 offset (ch :: text2) (f :: tops) f.rules toks1 res1
              (hw f (List.mem_cons_self _ _)) hw hinv htr
            rcases res1 with e1 | ⟨top1, adv1⟩ <;> dsimp only at h
            · simp only [Option.some.injEq, Prod.mk.injEq] at h
              obtain ⟨ha, hb⟩ := h
              subst ha
              subst hb
              exact ⟨h1.1, fun top2 hres => nomatch hres⟩
            · obtain ⟨hadv0, hadvle, hw1, hinv1⟩ := h1.2 top1 adv1 rfl
              by_cases hz : adv1 = 0
              · rw [if_pos hz] at h
                rcases hts : tokenizeSeq l rc fuel (offset + 1) ((ch :: text2).drop 1) top1 base with
                  _ | ⟨toks2, res2⟩ <;> rw [hts] at h
                · exact absurd h (by simp)
                · have h2 := IH4 (offset + 1) ((ch :: text2).drop 1) top1 toks2 res2 hw1
                    (invStack_mono hinv1 (by omega)) hts
                  simp only [Option.some.injEq, Prod.mk.injEq] at h
                  obtain ⟨ha, hb⟩ := h
                  subst ha
                  subst hb
                  have hblen : ((offset + 1 : Nat) : Int) + ((ch :: text2).drop 1).length =
                      (offset : Int) + (ch :: text2).length := by
                    simp
                    omega
                  refine ⟨fun t ht2 => ?_, fun top2 hres => ?_⟩
                  · rcases List.mem_append.mp ht2 with ht2 | ht2
                    · exact h1.1 t ht2
                    · rcases List.mem_cons.mp ht2 with rfl | ht2
                      · refine ⟨by positivity, by norm_num, ?_⟩
                        simp only [List.length_cons]
                        push_cast
                        omega
                      · exact tokBounded_mono (h2.1 t ht2) (le_of_eq hblen)
                  · obtain ⟨hws, hinvs⟩ := h2.2 top2 hres
                    refine ⟨hws, ?_⟩
                    have : (offset + 1) + ((ch :: text2).drop 1).length =
                        offset + (ch :: text2).length := by
                      simp
                      omega
                    rw [← this]
                    exact hinvs
              · rw [if_neg hz] at h
                have hpos : 0 < adv1 := by omega
                rw [if_pos hpos] at h
                rcases hts : tokenizeSeq l rc fuel (offset + adv1.toNat)
                    ((ch :: text2).drop adv1.toNat) top1 base with
                  _ | ⟨toks2, res2⟩ <;> rw [hts] at h
                · exact absurd h (by simp)
                · have h2 := IH4 (offset + adv1.toNat)
                    ((ch :: text2).drop adv1.toNat) top1 toks2 res2 hw1
                    (invStack_mono hinv1 (by omega)) hts
                  simp only [Option.some.injEq, Prod.mk.injEq] at h
                  obtain ⟨ha, hb⟩ := h
                  subst ha
                  subst hb
                  have hkle : adv1.toNat ≤ (ch :: text2).length := by
                    simp only [List.length_cons] at hadvle ⊢
                    omega
                  have hblen : ((offset + adv1.toNat : Nat) : Int) +
                      ((ch :: text2).drop adv1.toNat).length ≤
                      (offset : Int) + (ch :: text2).length := by
                    rw [List.length_drop]
                    push_cast
                    omega
                  refine ⟨fun t ht2 => ?_, fun top2 hres => ?_⟩
                  · rcases List.mem_append.mp ht2 with ht2 | ht2
                    · exact h1.1 t ht2
                    · exact tokBounded_mono (h2.1 t ht2) hblen
                  · obtain ⟨hws, hinvs⟩ := h2.2 top2 hres
                    refine ⟨hws, invStack_mono hinvs ?_⟩
                    rw [List.length_drop]
                    omega

/-- A single-character literal matcher satisfies the oniguruma region
guarantees. -/
theorem wfLitRe (c : Char) : WfRegex (litRe c) := by
  intro text gs h
  simp only [litRe] at h
  rcases text with _ | ⟨t, rest⟩ <;> (try dsimp only at h)
  · exact absurd h (by simp)
  · by_cases hc : t = c
    · rw [if_pos hc, Option.some.injEq] at h
      subst h
      refine ⟨?_, ?_⟩
      · intro r hr
        rw [List.mem_singleton.mp hr]
        exact ⟨Nat.zero_le 1, by simp⟩
      · intro g0 gs' hg
        injection hg with h1 h2
        rw [← h1]
    · rw [if_neg hc] at h
      exact absurd h (by simp)

/-- The concrete regex compiler used by the witness grammars only
produces well-formed regexes. -/
theorem wfRcT : WfRc rcT := by
  intro s re h
  simp only [rcT] at h
  split_ifs at h
  · rw [Except.ok.injEq] at h
    subst h
    exact wfLitRe _
  · rw [Except.ok.injEq] at h
    subst h
    exact wfLitRe _
  · rw [Except.ok.injEq] at h
    subst h
    exact wfLitRe _

theorem wfMW : WfRule mW :=
  .matchW "x" (some (litRe 'a')) false none none .nop gjW (wfLitRe 'a')
    (fun _ hcs => Option.noConfusion hcs) (fun _ hrs => Option.noConfusion hrs)

theorem wfGW : WfCG gW := by
  refine ⟨?_, fun p hp => absurd hp (List.not_mem_nil p)⟩
  exact .expandW _ _ _ (fun r hr => by rw [List.mem_singleton.mp hr]; exact wfMW)

theorem pnGW : PlainNamed gW.root :=
  .expandW _ _ _ (fun r hr => by
    rw [List.mem_singleton.mp hr]
    exact .matchW "x" _ _ _ _ _ (by decide))

theorem pncGW : PlainNoCap gW.root :=
  .expandW _ _ _ (fun r hr => by
    rw [List.mem_singleton.mp hr]
    exact .matchW "x" _ _ _ _)

/-- The custom bufio split loses no bytes: concatenating the produced
lines restores the pending accumulator followed by the remaining input. -/
theorem splitLinesAux_join : ∀ (s : Str) (acc : List Char),
    (splitLinesAux acc s).flatten = acc.reverse ++ s := by
  intro s
  induction s with
  | nil =>
    intro acc
    rcases acc with _ | ⟨a, as⟩
    · rfl
    · rw [splitLinesAux]
      simp
  | cons c rest ih =>
    intro acc
    rw [splitLinesAux]
    by_cases hc : c = '\n'
    · rw [if_pos hc]
      simp [ih, hc]
    · rw [if_neg hc]
      rw [ih]
      simp

/-- The line loop of TokenizeReader keeps every token within
`offset + total length of the remaining lines`. -/
theorem readerGo_sound (l : Loader) (rc : String → Except String RegexFn)
    (fuel : Nat) (base : CGrammar) (hrc : WfRc rc) (hbase : WfCG base) :
    ∀ (lines : List Str) (offset : Nat) (top : Stack) (toks : List Token),
    WfStack top → InvStack top offset →
    readerGo l rc fuel base offset top lines = some (.ok toks) →
    ∀ t ∈ toks, TokBounded ((offset : Int) + ((lines.map List.length).sum : Int)) t := by
  intro lines
  induction lines with
  | nil =>
    intro offset top toks _ _ h t ht
    simp only [readerGo, Option.some.injEq, Except.ok.injEq] at h
    subst h
    exact absurd ht (List.not_mem_nil t)
  | cons line rest ih =>
    intro offset top toks hw hinv h t ht
    rw [readerGo] at h
    rcases hts : tokenizeSeq l rc fuel offset line top base with _ | ⟨toks1, res1⟩ <;>
      rw [hts] at h <;> (try dsimp only at h)
    · exact Option.noConfusion h
    · rcases res1 with e | top1 <;> (try dsimp only at h)
      · rw [Option.some.injEq] at h
        exact Except.noConfusion h
      · obtain ⟨hb1, hst⟩ := (evalSound l rc base hrc hbase fuel).2.2.2 offset line top
          toks1 (.ok top1) hw hinv hts
        obtain ⟨hw1, hinv1⟩ := hst top1 rfl
        rcases hrg : readerGo l rc fuel base (offset + line.length) top1 rest with
          _ | (e2 | toks2) <;> rw [hrg] at h <;> (try dsimp only at h)
        · exact Option.noConfusion h
        · rw [Option.some.injEq] at h
          exact Except.noConfusion h
        · rw [Option.some.injEq, Except.ok.injEq] at h
          subst h
          rcases List.mem_append.mp ht with h1 | h2
          · refine tokBounded_mono (hb1 t h1) ?_
            simp only [List.map_cons, List.sum_cons, Nat.cast_add]
            omega
          · refine tokBounded_mono (ih (offset + line.length) top1 toks2 hw1 hinv1 hrg t h2) ?_
            simp only [List.map_cons, List.sum_cons, Nat.cast_add]
            omega

/-- C9: the advance returned by every rule evaluation (include, expand or
match variant) that completes successfully is nonnegative — 0 when the
rule did not consume, the group-0 match length otherwise — so no rule
ever returns the -1 context-switch value and the retry-without-advance
branch of the TokenizeSequence loop is unreachable. -/
theorem c9_advance_nonneg (l : Loader) (rc : String → Except String RegexFn)
    (base : CGrammar) (fuel offset : Nat) (text : Str) (top : Stack) (r : CRule)
    (toks : List Token) (top2 : Stack) (adv : Int)
    (hrc : WfRc rc) (hbase : WfCG base) (hwr : WfRule r) (hw : WfStack top)
    (hinv : InvStack top offset)
    (h : evalRule l rc fuel offset text top base r = some (toks, .ok (top2, adv))) :
    0 ≤ adv ∧ adv ≠ -1 := by
  have hres := ((evalSound l rc base hrc hbase fuel).1 offset text top r toks
    (.ok (top2, adv)) hwr hw hinv h).2 top2 adv rfl
  exact ⟨hres.1, by omega⟩

theorem c9_advance_nonneg_witness : (0 : Int) ≤ 1 ∧ (1 : Int) ≠ -1 := by
  refine c9_advance_nonneg L0 rcT gW 5 0 (['a']) [⟨[mW], 0⟩] mW
    [⟨"x", 0, 1, 2⟩] [⟨[mW], 0⟩] 1 wfRcT wfGW wfMW ?_ ?_ ?_
  · intro f hf
    rw [List.mem_singleton.mp hf]
    intro r hr
    rw [List.mem_singleton.mp hr]
    exact wfMW
  · intro f hf
    rw [List.mem_singleton.mp hf]
  · rfl

/-- C10: every token returned by a completed TokenizeReader run has
nonnegative start and length and ends within the input: Start + Length is
at most the total input length. -/
theorem c10_reader_token_bounds (l : Loader) (rc : String → Except String RegexFn)
    (fuel : Nat) (g : CGrammar) (input : Str) (toks : List Token)
    (hrc : WfRc rc) (hg : WfCG g)
    (h : tokenizeReaderM l rc fuel g input = some (.ok toks)) :
    ∀ t ∈ toks, 0 ≤ t.start ∧ 0 ≤ t.length ∧ t.start + t.length ≤ (input.length : Int) := by
  intro t ht
  rw [tokenizeReaderM] at h
  rcases hrg : readerGo l rc fuel g 0 [⟨[g.root], 0⟩] (splitLines input) with
    _ | (e | toks0) <;> rw [hrg] at h <;> (try dsimp only at h)
  · exact Option.noConfusion h
  · rw [Option.some.injEq] at h
    exact Except.noConfusion h
  · rw [Option.some.injEq, Except.ok.injEq] at h
    subst h
    have hmem : t ∈ toks0 := ((List.perm_insertionSort tokenLE toks0).mem_iff).mp ht
    have hb := readerGo_sound l rc fuel g hrc hg (splitLines input) 0 [⟨[g.root], 0⟩]
      toks0 ?_ ?_ hrg t hmem
    · have hlen : ((splitLines input).map List.length).sum = input.length := by
        rw [← List.length_flatten, splitLines, splitLinesAux_join]
        simp
      rw [hlen] at hb
      refine ⟨hb.1, hb.2.1, ?_⟩
      have h3 := hb.2.2
      omega
    · intro f hf
      rw [List.mem_singleton.mp hf]
      intro r hr
      rw [List.mem_singleton.mp hr]
      exact hg.1
    · intro f hf
      rw [List.mem_singleton.mp hf]

theorem c10_reader_token_bounds_witness :
    0 ≤ (Token.mk "x" 0 1 2).start ∧ 0 ≤ (Token.mk "x" 0 1 2).length ∧
      (Token.mk "x" 0 1 2).start + (Token.mk "x" 0 1 2).length ≤
        (((['a']) : Str).length : Int) :=
  c10_reader_token_bounds L0 rcT 9 gW (['a']) [⟨"x", 0, 1, 2⟩] wfRcT wfGW (by decide)
    ⟨"x", 0, 1, 2⟩ (by decide)

/-- Under plain named rules (no stack operation, non-empty scope) a
successful evaluation leaves the stack unchanged and, when it consumed,
emitted a token starting at the cursor whose length is the advance. -/
theorem plainAdv (l : Loader) (rc : String → Except String RegexFn) (base : CGrammar) :
    ∀ fuel : Nat,
      (∀ (offset : Nat) (text : Str) (top : Stack) (r : CRule) (toks : List Token)
        (top2 : Stack) (adv : Int),
        PlainNamed r → WfRule r →
        evalRule l rc fuel offset text top base r = some (toks, .ok (top2, adv)) →
        top2 = top ∧ (adv ≠ 0 → ∃ t ∈ toks, t.start = (offset : Int) ∧ t.length = adv)) ∧
      (∀ (offset : Nat) (text : Str) (top : Stack) (rules : List CRule)
        (toks : List Token) (top2 : Stack) (adv : Int),
        (∀ r ∈ rules, PlainNamed r) → WfRules rules →
        tryRules l rc fuel offset text top base rules = some (toks, .ok (top2, adv)) →
        top2 = top ∧ (adv ≠ 0 → ∃ t ∈ toks, t.start = (offset : Int) ∧ t.length = adv)) := by
  intro fuel
  induction fuel with
  | zero =>
    refine ⟨fun o tx tp r toks tp2 adv _ _ h => ?_, fun o tx tp rs toks tp2 adv _ _ h => ?_⟩
    · rw [evalRule.eq_def] at h
      exact Option.noConfusion h
    · rw [tryRules.eq_def] at h
      exact Option.noConfusion h
  | succ fuel ih =>
    obtain ⟨IH1, IH2⟩ := ih
    refine ⟨?_, ?_⟩
    · intro offset text top r toks top2 adv hpn hwr h
      cases hpn with
      | expandW name rs gj hrs =>
        rw [evalRule.eq_def] at h
        dsimp only at h
        cases hwr with
        | expandW _ _ _ hwrs =>
          exact IH2 offset text top rs toks top2 adv hrs hwrs h
      | matchW name pat neg caps rules gj hname =>
        cases hwr with
        | matchW _ _ _ _ _ _ _ hp hcp hrl =>
          rw [evalRule.eq_def] at h
          dsimp only at h
          rcases pat with _ | re <;> (try dsimp only at h)
          · rw [Option.some.injEq, Prod.mk.injEq] at h
            exact Except.noConfusion h.2
          · have hre : WfRegex re := hp
            by_cases hcnd : (rxMatch re text).isNone ≠ neg
            · rw [if_pos hcnd] at h
              rw [Option.some.injEq, Prod.mk.injEq] at h
              obtain ⟨h1, h2⟩ := h
              subst h1
              rw [Except.ok.injEq, Prod.mk.injEq] at h2
              obtain ⟨h3, h4⟩ := h2
              subst h3
              exact ⟨rfl, fun hz => absurd h4.symm hz⟩
            · rw [if_neg hcnd] at h
              rcases hrx : rxMatch re text with _ | gs0 <;> rw [hrx] at h <;>
                simp only [Option.getD_some, Option.getD_none] at h
              · rcases hcap : evalCaptures l rc fuel offset text top base []
                    (caps.getD []) with _ | ⟨capToks, e⟩ <;> rw [hcap] at h <;>
                  (try dsimp only at h)
                · exact Option.noConfusion h
                · rcases e with _ | e2 <;> (try dsimp only at h)
                  · rw [Option.some.injEq, Prod.mk.injEq] at h
                    obtain ⟨h1, h2⟩ := h
                    subst h1
                    rw [Except.ok.injEq, Prod.mk.injEq] at h2
                    obtain ⟨h3, h4⟩ := h2
                    subst h3
                    exact ⟨rfl, fun hz => absurd h4.symm hz⟩
                  · rw [Option.some.injEq, Prod.mk.injEq] at h
                    exact Except.noConfusion h.2
              · rcases gs0 with _ | ⟨g0, grest⟩ <;> (try dsimp only at h)
                · rcases hcap : evalCaptures l rc fuel offset text top base []
                      (caps.getD []) with _ | ⟨capToks, e⟩ <;> rw [hcap] at h <;>
                    (try dsimp only at h)
                  · exact Option.noConfusion h
                  · rcases e with _ | e2 <;> (try dsimp only at h)
                    · rw [Option.some.injEq, Prod.mk.injEq] at h
                      obtain ⟨h1, h2⟩ := h
                      subst h1
                      rw [Except.ok.injEq, Prod.mk.injEq] at h2
                      obtain ⟨h3, h4⟩ := h2
                      subst h3
                      exact ⟨rfl, fun hz => absurd h4.symm hz⟩
                    · rw [Option.some.injEq, Prod.mk.injEq] at h
                      exact Except.noConfusion h.2
                · have hgs0 : re text = some (g0 :: grest) := by
                    rw [rxMatch] at hrx
                    by_cases hemp : text.isEmpty
                    · rw [if_pos hemp] at hrx
                      exact absurd hrx (by simp)
                    · rwa [if_neg hemp] at hrx
                  have hg0s : g0.start = 0 := (hre text (g0 :: grest) hgs0).2 g0 grest rfl
                  rw [if_pos hname] at h
                  rcases hcap : evalCaptures l rc fuel offset text top base (g0 :: grest)
                      (caps.getD []) with _ | ⟨capToks, e⟩ <;> rw [hcap] at h <;>
                    (try dsimp only at h)
                  · exact Option.noConfusion h
                  · rcases e with _ | e2 <;> (try dsimp only at h)
                    · rw [Option.some.injEq, Prod.mk.injEq] at h
                      obtain ⟨h1, h2⟩ := h
                      subst h1
                      rw [Except.ok.injEq, Prod.mk.injEq] at h2
                      obtain ⟨h3, h4⟩ := h2
                      subst h3
                      refine ⟨rfl, fun hz => ?_⟩
                      refine ⟨⟨name, (g0.start : Int) + (offset : Int), g0.len,
                        stackDepth top⟩, List.mem_append_left _ (List.mem_cons_self _ _),
                        ?_, h4⟩
                      rw [hg0s]
                      simp
                    · rw [Option.some.injEq, Prod.mk.injEq] at h
                      exact Except.noConfusion h.2
    · intro offset text top rules toks top2 adv hpns hwrs h
      rw [tryRules.eq_def] at h
      dsimp only at h
      rcases rules with _ | ⟨r, rs⟩ <;> (try dsimp only at h)
      · rw [Option.some.injEq, Prod.mk.injEq] at h
        obtain ⟨h1, h2⟩ := h
        subst h1
        rw [Except.ok.injEq, Prod.mk.injEq] at h2
        obtain ⟨h3, h4⟩ := h2
        subst h3
        exact ⟨rfl, fun hz => absurd h4.symm hz⟩
      · rcases he : evalRule l rc fuel offset text top base r with _ | ⟨toks1, res1⟩ <;>
          rw [he] at h <;> (try dsimp only at h)
        · exact Option.noConfusion h
        · rcases res1 with e | ⟨top1, adv1⟩ <;> (try dsimp only at h)
          · rw [Option.some.injEq, Prod.mk.injEq] at h
            exact Except.noConfusion h.2
          · obtain ⟨htop1, hcov1⟩ := IH1 offset text top r toks1 top1 adv1
              (hpns r (List.mem_cons_self r rs)) (hwrs r (List.mem_cons_self r rs)) he
            subst htop1
            by_cases hz1 : adv1 ≠ 0
            · rw [if_pos hz1] at h
              rw [Option.some.injEq, Prod.mk.injEq] at h
              obtain ⟨h1, h2⟩ := h
              subst h1
              rw [Except.ok.injEq, Prod.mk.injEq] at h2
              obtain ⟨h3, h4⟩ := h2
              subst h3
              subst h4
              exact ⟨rfl, fun _ => hcov1 hz1⟩
            · rw [if_neg hz1] at h
              rcases htr : tryRules l rc fuel offset text top1 base rs with
                _ | ⟨toks2, res2⟩ <;> rw [htr] at h <;> (try dsimp only at h)
              · exact Option.noConfusion h
              · rw [Option.some.injEq, Prod.mk.injEq] at h
                obtain ⟨h1, h2⟩ := h
                subst h1
                rw [h2] at htr
                obtain ⟨htop2, hcov2⟩ := IH2 offset text top1 rs toks2 top2 adv
                  (fun r2 hr2 => hpns r2 (List.mem_cons_of_mem r hr2))
                  (fun r2 hr2 => hwrs r2 (List.mem_cons_of_mem r hr2)) htr
                refine ⟨htop2, fun hz => ?_⟩
                obtain ⟨t, ht, hts⟩ := hcov2 hz
                exact ⟨t, List.mem_append_right _ ht, hts⟩

/-- C2 (amended): under include-free plain named rules — containers and
match rules with no stack operation and a non-empty scope — every
completed TokenizeSequence run emits token spans covering every byte of
the input: consumed spans carry the consuming rule's named token and
unconsumed bytes carry the 1-byte empty-scope filler. -/
theorem c2_coverage_plain_named (l : Loader) (rc : String → Except String RegexFn)
    (base : CGrammar) (hrc : WfRc rc) (hbase : WfCG base) :
    ∀ (fuel offset : Nat) (text : Str) (top : Stack) (toks : List Token) (top2 : Stack),
      (∀ f ∈ top, ∀ r ∈ f.rules, PlainNamed r) → WfStack top → InvStack top offset →
      tokenizeSeq l rc fuel offset text top base = some (toks, .ok top2) →
      ∀ p : Int, (offset : Int) ≤ p → p < (offset : Int) + text.length →
      covers toks p := by
  intro fuel
  induction fuel with
  | zero =>
    intro offset text top toks top2 _ _ _ h
    rw [tokenizeSeq.eq_def] at h
    exact Option.noConfusion h
  | succ fuel ih =>
    intro offset text top toks top2 hpl hw hinv h p hp1 hp2
    rw [tokenizeSeq.eq_def] at h
    dsimp only at h
    rcases text with _ | ⟨c, rest⟩
    · simp only [List.length_nil, Nat.cast_zero, add_zero] at hp2
      omega
    · rcases top with _ | ⟨f, ftail⟩ <;> (try dsimp only at h)
      · rw [Option.some.injEq, Prod.mk.injEq] at h
        exact Except.noConfusion h.2
      · rcases htr : tryRules l rc fuel offset (c :: rest) (f :: ftail) base f.rules with
          _ | ⟨toksR, resR⟩ <;> rw [htr] at h <;> (try dsimp only at h)
        · exact Option.noConfusion h
        · rcases resR with e | ⟨top1, adv⟩ <;> (try dsimp only at h)
          · rw [Option.some.injEq, Prod.mk.injEq] at h
            exact Except.noConfusion h.2
          · have hplR : ∀ r ∈ f.rules, PlainNamed r := hpl f (List.mem_cons_self f ftail)
            have hwR : WfRules f.rules := hw f (List.mem_cons_self f ftail)
            obtain ⟨hadv0, hadvle, hw1, hinv1⟩ := ((evalSound l rc base hrc hbase fuel).2.1
              offset (c :: rest) (f :: ftail) f.rules toksR (.ok (top1, adv))
              hwR hw hinv htr).2 top1 adv rfl
            obtain ⟨htop1, hcov⟩ := (plainAdv l rc base fuel).2 offset (c :: rest)
              (f :: ftail) f.rules toksR top1 adv hplR hwR htr
            by_cases hz : adv = 0
            · rw [if_pos hz] at h
              rcases hrec : tokenizeSeq l rc fuel (offset + 1) ((c :: rest).drop 1)
                  top1 base with _ | ⟨toks2, res2⟩ <;> rw [hrec] at h <;>
                (try dsimp only at h)
              · exact Option.noConfusion h
              · rw [Option.some.injEq, Prod.mk.injEq] at h
                obtain ⟨h1, h2⟩ := h
                subst h1
                by_cases hpo : p < (offset : Int) + 1
                · refine ⟨⟨"", (offset : Int), 1, 0⟩,
                    List.mem_append_right _ (List.mem_cons_self _ _), ?_, ?_⟩
                  · exact hp1
                  · exact hpo
                · rw [h2] at hrec
                  rw [htop1] at hrec
                  have hc2 := ih (offset + 1) ((c :: rest).drop 1) (f :: ftail) toks2 top2
                    hpl hw (fun fr hfr => le_trans (hinv fr hfr) (Nat.le_succ offset))
                    hrec p (by push_cast; omega) ?_
                  · obtain ⟨t, ht, hts⟩ := hc2
                    exact ⟨t, List.mem_append_right _ (List.mem_cons_of_mem _ ht), hts⟩
                  · simp only [List.drop_succ_cons, List.drop_zero, List.length_cons] at hp2 ⊢
                    push_cast at hp2 ⊢
                    omega
            · rw [if_neg hz] at h
              have hpos : 0 < adv := lt_of_le_of_ne hadv0 (Ne.symm hz)
              rw [if_pos hpos] at h
              obtain ⟨t, htmem, hts, htl⟩ := hcov hz
              rcases hrec : tokenizeSeq l rc fuel (offset + adv.toNat)
                  ((c :: rest).drop adv.toNat) top1 base with _ | ⟨toks2, res2⟩ <;>
                rw [hrec] at h <;> (try dsimp only at h)
              · exact Option.noConfusion h
              · rw [Option.some.injEq, Prod.mk.injEq] at h
                obtain ⟨h1, h2⟩ := h
                subst h1
                by_cases hpk : p < (offset : Int) + adv
                · refine ⟨t, List.mem_append_left _ htmem, ?_, ?_⟩
                  · rw [hts]
                    exact hp1
                  · rw [hts, htl]
                    exact hpk
                · rw [h2] at hrec
                  rw [htop1] at hrec
                  have hc2 := ih (offset + adv.toNat) ((c :: rest).drop adv.toNat)
                    (f :: ftail) toks2 top2 hpl hw
                    (fun fr hfr => le_trans (hinv fr hfr) (Nat.le_add_right _ _))
                    hrec p ?_ ?_
                  · obtain ⟨t2, ht2, ht2s⟩ := hc2
                    exact ⟨t2, List.mem_append_right _ ht2, ht2s⟩
                  · push_cast
                    omega
                  · rw [List.length_drop]
                    push_cast
                    omega

theorem c2_coverage_plain_named_witness :
    covers [⟨"x", 0, 1, 2⟩, ⟨"", 1, 1, 0⟩] 1 := by
  refine c2_coverage_plain_named L0 rcT gW wfRcT wfGW 9 0 (['a', 'b']) [⟨[gW.root], 0⟩]
    [⟨"x", 0, 1, 2⟩, ⟨"", 1, 1, 0⟩] [⟨[gW.root], 0⟩] ?_ ?_ ?_ ?_ 1 ?_ ?_
  · intro f hf
    rw [List.mem_singleton.mp hf]
    intro r hr
    rw [List.mem_singleton.mp hr]
    exact pnGW
  · intro f hf
    rw [List.mem_singleton.mp hf]
    intro r hr
    rw [List.mem_singleton.mp hr]
    exact wfGW.1
  · intro f hf
    rw [List.mem_singleton.mp hf]
  · rfl
  · decide
  · decide

/-- With an empty capture array the capture loop does nothing. -/
theorem evalCapsNil (l : Loader) (rc : String → Except String RegexFn)
    (fuel offset : Nat) (text : Str) (top : Stack) (base : CGrammar)
    (gs : List Range) (toks : List Token) (e : Option EvalErr)
    (h : evalCaptures l rc fuel offset text top base gs [] = some (toks, e)) :
    toks = [] ∧ e = none := by
  rcases fuel with _ | fuel
  · rw [evalCaptures.eq_def] at h
    exact Option.noConfusion h
  · rw [evalCaptures.eq_def] at h
    dsimp only at h
    rcases gs with _ | ⟨g, gs⟩ <;> (try dsimp only at h) <;>
      rw [Option.some.injEq, Prod.mk.injEq] at h
    · exact ⟨h.1.symm, h.2.symm⟩
    · exact ⟨h.1.symm, h.2.symm⟩

/-- Under no-capture no-operation rules, rule evaluation emits only
non-empty-scope tokens and leaves the stack unchanged; the sequence loop
then emits empty-scope tokens only as loop fillers: length 1, start at
the cursor, starts strictly increasing along the run. -/
theorem fillerChainAux (l : Loader) (rc : String → Except String RegexFn)
    (base : CGrammar) :
    ∀ fuel : Nat,
      (∀ (offset : Nat) (text : Str) (top : Stack) (r : CRule) (toks : List Token)
        (res : Except EvalErr (Stack × Int)),
        PlainNoCap r →
        evalRule l rc fuel offset text top base r = some (toks, res) →
        (∀ t ∈ toks, ¬ t.scope = "") ∧
        (∀ top2 adv, res = .ok (top2, adv) → top2 = top)) ∧
      (∀ (offset : Nat) (text : Str) (top : Stack) (rules : List CRule)
        (toks : List Token) (res : Except EvalErr (Stack × Int)),
        (∀ r ∈ rules, PlainNoCap r) →
        tryRules l rc fuel offset text top base rules = some (toks, res) →
        (∀ t ∈ toks, ¬ t.scope = "") ∧
        (∀ top2 adv, res = .ok (top2, adv) → top2 = top)) ∧
      (∀ (offset : Nat) (text : Str) (top : Stack) (toks : List Token)
        (res : Except EvalErr Stack),
        (∀ f ∈ top, ∀ r ∈ f.rules, PlainNoCap r) →
        tokenizeSeq l rc fuel offset text top base = some (toks, res) →
        (∀ t ∈ toks, t.scope = "" → t.length = 1 ∧ (offset : Int) ≤ t.start) ∧
        List.Chain' (fun a b => a.start < b.start)
          (toks.filter (fun t => t.scope == ""))) := by
  intro fuel
  induction fuel with
  | zero =>
    refine ⟨fun o tx tp r toks res _ h => ?_, fun o tx tp rs toks res _ h => ?_,
      fun o tx tp toks res _ h => ?_⟩
    · rw [evalRule.eq_def] at h
      exact Option.noConfusion h
    · rw [tryRules.eq_def] at h
      exact Option.noConfusion h
    · rw [tokenizeSeq.eq_def] at h
      exact Option.noConfusion h
  | succ fuel ih =>
    obtain ⟨IH1, IH2, IH3⟩ := ih
    refine ⟨?_, ?_, ?_⟩
    · intro offset text top r toks res hpn h
      cases hpn with
      | expandW name rs gj hrs =>
        rw [evalRule.eq_def] at h
        dsimp only at h
        exact IH2 offset text top rs toks res hrs h
      | matchW name pat neg rules gj =>
        rw [evalRule.eq_def] at h
        dsimp only at h
        rcases pat with _ | re <;> (try dsimp only at h)
        · rw [Option.some.injEq, Prod.mk.injEq] at h
          obtain ⟨h1, h2⟩ := h
          subst h1
          subst h2
          exact ⟨fun t ht => absurd ht (List.not_mem_nil t),
            fun top2 adv hres => Except.noConfusion hres⟩
        · by_cases hcnd : (rxMatch re text).isNone ≠ neg
          · rw [if_pos hcnd] at h
            rw [Option.some.injEq, Prod.mk.injEq] at h
            obtain ⟨h1, h2⟩ := h
            subst h1
            subst h2
            refine ⟨fun t ht => absurd ht (List.not_mem_nil t), fun top2 adv hres => ?_⟩
            rw [Except.ok.injEq, Prod.mk.injEq] at hres
            exact hres.1.symm
          · rw [if_neg hcnd] at h
            simp only [Option.getD_none] at h
            rcases hrx : rxMatch re text with _ | gs0 <;> rw [hrx] at h <;>
              simp only [Option.getD_some, Option.getD_none] at h
            · rcases hcap : evalCaptures l rc fuel offset text top base [] [] with
                _ | ⟨capToks, e⟩ <;> rw [hcap] at h <;> (try dsimp only at h)
              · exact Option.noConfusion h
              · obtain ⟨hc1, hc2⟩ := evalCapsNil l rc fuel offset text top base [] capToks e hcap
                subst hc1
                subst hc2
                dsimp only at h
                rw [Option.some.injEq, Prod.mk.injEq] at h
                obtain ⟨h1, h2⟩ := h
                subst h1
                subst h2
                refine ⟨fun t ht => ?_, fun top2 adv hres => ?_⟩
                · by_cases hn : name = ""
                  · rw [if_neg (fun hcon => hcon hn)] at ht
                    exact absurd ht (by simp)
                  · rw [if_pos hn] at ht
                    simp only [List.append_nil, List.mem_singleton] at ht
                    subst ht
                    exact hn
                · rw [Except.ok.injEq, Prod.mk.injEq] at hres
                  exact hres.1.symm
            · rcases hcap : evalCaptures l rc fuel offset text top base gs0 [] with
                _ | ⟨capToks, e⟩ <;> rw [hcap] at h <;> (try dsimp only at h)
              · exact Option.noConfusion h
              · obtain ⟨hc1, hc2⟩ := evalCapsNil l rc fuel offset text top base gs0 capToks e hcap
                subst hc1
                subst hc2
                dsimp only at h
                rcases gs0 with _ | ⟨g0, grest⟩ <;> (try dsimp only at h) <;>
                  rw [Option.some.injEq, Prod.mk.injEq] at h <;>
                  obtain ⟨h1, h2⟩ := h <;> subst h1 <;> subst h2
                · refine ⟨fun t ht => ?_, fun top2 adv hres => ?_⟩
                  · by_cases hn : name = ""
                    · rw [if_neg (fun hcon => hcon hn)] at ht
                      exact absurd ht (by simp)
                    · rw [if_pos hn] at ht
                      simp only [List.append_nil, List.mem_singleton] at ht
                      subst ht
                      exact hn
                  · rw [Except.ok.injEq, Prod.mk.injEq] at hres
                    exact hres.1.symm
                · refine ⟨fun t ht => ?_, fun top2 adv hres => ?_⟩
                  · by_cases hn : name = ""
                    · rw [if_neg (fun hcon => hcon hn)] at ht
                      exact absurd ht (by simp)
                    · rw [if_pos hn] at ht
                      simp only [List.append_nil, List.mem_singleton] at ht
                      subst ht
                      exact hn
                  · rw [Except.ok.injEq, Prod.mk.injEq] at hres
                    exact hres.1.symm
    · intro offset text top rules toks res hpns h
      rw [tryRules.eq_def] at h
      dsimp only at h
      rcases rules with _ | ⟨r, rs⟩ <;> (try dsimp only at h)
      · rw [Option.some.injEq, Prod.mk.injEq] at h
        obtain ⟨h1, h2⟩ := h
        subst h1
        subst h2
        refine ⟨fun t ht => absurd ht (List.not_mem_nil t), fun top2 adv hres => ?_⟩
        rw [Except.ok.injEq, Prod.mk.injEq] at hres
        exact hres.1.symm
      · rcases he : evalRule l rc fuel offset text top base r with _ | ⟨toks1, res1⟩ <;>
          rw [he] at h <;> (try dsimp only at h)
        · exact Option.noConfusion h
        · obtain ⟨hne1, hst1⟩ := IH1 offset text top r toks1 res1
            (hpns r (List.mem_cons_self r rs)) he
          rcases res1 with e | ⟨top1, adv1⟩ <;> (try dsimp only at h)
          · rw [Option.some.injEq, Prod.mk.injEq] at h
            obtain ⟨h1, h2⟩ := h
            subst h1
            subst h2
            exact ⟨hne1, fun top2 adv hres => Except.noConfusion hres⟩
          · have htop1 : top1 = top := hst1 top1 adv1 rfl
            by_cases hz1 : adv1 ≠ 0
            · rw [if_pos hz1] at h
              rw [Option.some.injEq, Prod.mk.injEq] at h
              obtain ⟨h1, h2⟩ := h
              subst h1
              subst h2
              refine ⟨hne1, fun top2 adv hres => ?_⟩
              rw [Except.ok.injEq, Prod.mk.injEq] at hres
              rw [← hres.1]
              exact htop1
            · rw [if_neg hz1] at h
              rcases htr : tryRules l rc fuel offset text top1 base rs with
                _ | ⟨toks2, res2⟩ <;> rw [htr] at h <;> (try dsimp only at h)
              · exact Option.noConfusion h
              · rw [Option.some.injEq, Prod.mk.injEq] at h
                obtain ⟨h1, h2⟩ := h
                subst h1
                subst h2
                obtain ⟨hne2, hst2⟩ := IH2 offset text top1 rs toks2 res2
                  (fun r2 hr2 => hpns r2 (List.mem_cons_of_mem r hr2)) htr
                refine ⟨fun t ht => ?_, fun top2 adv hres => ?_⟩
                · rcases List.mem_append.mp ht with h1 | h2
                  · exact hne1 t h1
                  · exact hne2 t h2
                · rw [hst2 top2 adv hres]
                  exact htop1
    · intro offset text top toks res hpl h
      rw [tokenizeSeq.eq_def] at h
      dsimp only at h
      rcases text with _ | ⟨c, rest⟩
      · rw [Option.some.injEq, Prod.mk.injEq] at h
        obtain ⟨h1, h2⟩ := h
        subst h1
        subst h2
        exact ⟨fun t ht => absurd ht (List.not_mem_nil t), by simp⟩
      · rcases top with _ | ⟨f, ftail⟩ <;> (try dsimp only at h)
        · rw [Option.some.injEq, Prod.mk.injEq] at h
          obtain ⟨h1, h2⟩ := h
          subst h1
          subst h2
          exact ⟨fun t ht => absurd ht (List.not_mem_nil t), by simp⟩
        · rcases htr : tryRules l rc fuel offset (c :: rest) (f :: ftail) base f.rules with
            _ | ⟨toksR, resR⟩ <;> rw [htr] at h <;> (try dsimp only at h)
          · exact Option.noConfusion h
          · obtain ⟨hneR, hstR⟩ := IH2 offset (c :: rest) (f :: ftail) f.rules toksR resR
              (hpl f (List.mem_cons_self f ftail)) htr
            have hfR : toksR.filter (fun t => t.scope == "") = [] := by
              rw [List.filter_eq_nil_iff]
              intro a ha
              simp only [beq_iff_eq]
              exact hneR a ha
            rcases resR with e | ⟨top1, adv⟩ <;> (try dsimp only at h)
            · rw [Option.some.injEq, Prod.mk.injEq] at h
              obtain ⟨h1, h2⟩ := h
              subst h1
              subst h2
              refine ⟨fun t ht hsc => absurd hsc (hneR t ht), ?_⟩
              rw [hfR]
              exact List.chain'_nil
            · have htop1 : top1 = f :: ftail := hstR top1 adv rfl
              subst htop1
              by_cases hz : adv = 0
              · rw [if_pos hz] at h
                rcases hrec : tokenizeSeq l rc fuel (offset + 1) ((c :: rest).drop 1)
                    (f :: ftail) base with _ | ⟨toks2, res2⟩ <;> rw [hrec] at h <;>
                  (try dsimp only at h)
                · exact Option.noConfusion h
                · rw [Option.some.injEq, Prod.mk.injEq] at h
                  obtain ⟨h1, h2⟩ := h
                  subst h1
                  subst h2
                  obtain ⟨hlen2, hchain2⟩ := IH3 (offset + 1) ((c :: rest).drop 1)
                    (f :: ftail) toks2 res2 hpl hrec
                  refine ⟨fun t ht hsc => ?_, ?_⟩
                  · rcases List.mem_append.mp ht with h1 | h1
                    · exact absurd hsc (hneR t h1)
                    · rcases List.mem_cons.mp h1 with rfl | h1
                      · exact ⟨rfl, le_refl _⟩
                      · obtain ⟨hl1, hge⟩ := hlen2 t h1 hsc
                        refine ⟨hl1, ?_⟩
                        push_cast at hge
                        omega
                  · rw [List.filter_append, hfR, List.nil_append,
                      List.filter_cons_of_pos (by simp)]
                    rw [List.chain'_cons']
                    refine ⟨fun y hy => ?_, hchain2⟩
                    have hy2 := List.mem_of_mem_head? hy
                    have hymem := List.mem_of_mem_filter hy2
                    have hysc := List.of_mem_filter hy2
                    simp only [beq_iff_eq] at hysc
                    obtain ⟨_, hge⟩ := hlen2 y hymem hysc
                    dsimp only
                    push_cast at hge
                    omega
              · rw [if_neg hz] at h
                by_cases hpos : 0 < adv
                · rw [if_pos hpos] at h
                  rcases hrec : tokenizeSeq l rc fuel (offset + adv.toNat)
                      ((c :: rest).drop adv.toNat) (f :: ftail) base with
                    _ | ⟨toks2, res2⟩ <;> rw [hrec] at h <;> (try dsimp only at h)
                  · exact Option.noConfusion h
                  · rw [Option.some.injEq, Prod.mk.injEq] at h
                    obtain ⟨h1, h2⟩ := h
                    subst h1
                    subst h2
                    obtain ⟨hlen2, hchain2⟩ := IH3 (offset + adv.toNat)
                      ((c :: rest).drop adv.toNat) (f :: ftail) toks2 res2 hpl hrec
                    refine ⟨fun t ht hsc => ?_, ?_⟩
                    · rcases List.mem_append.mp ht with h1 | h1
                      · exact absurd hsc (hneR t h1)
                      · obtain ⟨hl1, hge⟩ := hlen2 t h1 hsc
                        refine ⟨hl1, ?_⟩
                        push_cast at hge
                        omega
                    · rw [List.filter_append, hfR, List.nil_append]
                      exact hchain2
                · rw [if_neg hpos] at h
                  rcases hrec : tokenizeSeq l rc fuel (offset + 0)
                      ((c :: rest).drop 0) (f :: ftail) base with
                    _ | ⟨toks2, res2⟩ <;> rw [hrec] at h <;> (try dsimp only at h)
                  · exact Option.noConfusion h
                  · rw [Option.some.injEq, Prod.mk.injEq] at h
                    obtain ⟨h1, h2⟩ := h
                    subst h1
                    subst h2
                    obtain ⟨hlen2, hchain2⟩ := IH3 (offset + 0) ((c :: rest).drop 0)
                      (f :: ftail) toks2 res2 hpl hrec
                    refine ⟨fun t ht hsc => ?_, ?_⟩
                    · rcases List.mem_append.mp ht with h1 | h1
                      · exact absurd hsc (hneR t h1)
                      · obtain ⟨hl1, hge⟩ := hlen2 t h1 hsc
                        refine ⟨hl1, ?_⟩
                        push_cast at hge
                        omega
                    · rw [List.filter_append, hfR, List.nil_append]
                      exact hchain2

/-- C3 (amended): Mapper.Add ignores every empty-scope token, and in any
run under rules with no stack operation and no capture entries every
empty-scope token is a loop filler — length exactly 1 and pairwise
distinct start positions. -/
theorem c3_filler_invariants (l : Loader) (rc : String → Except String RegexFn)
    (base : CGrammar) (fuel offset : Nat) (text : Str) (top : Stack)
    (toks : List Token) (res : Except EvalErr Stack)
    (hplain : ∀ f ∈ top, ∀ r ∈ f.rules, PlainNoCap r)
    (h : tokenizeSeq l rc fuel offset text top base = some (toks, res)) :
    (∀ tm tok, tok.scope = "" → mapperAdd tm tok = some tm) ∧
    (∀ t ∈ toks, t.scope = "" → t.length = 1) ∧
    List.Pairwise (fun a b => a.start ≠ b.start)
      (toks.filter (fun t => t.scope == "")) := by
  obtain ⟨hlen, hchain⟩ := (fillerChainAux l rc base fuel).2.2 offset text top toks res
    hplain h
  refine ⟨fun tm tok hsc => by rw [mapperAdd, if_pos hsc],
    fun t ht hsc => (hlen t ht hsc).1, ?_⟩
  haveI : IsTrans Token (fun a b => a.start < b.start) := ⟨fun a b c hab hbc => lt_trans hab hbc⟩
  exact (List.chain'_iff_pairwise.mp hchain).imp (fun hab => ne_of_lt hab)

theorem c3_filler_invariants_witness :
    (∀ tm tok, tok.scope = "" → mapperAdd tm tok = some tm) ∧
    (∀ t ∈ [(⟨"", 0, 1, 0⟩ : Token), ⟨"", 1, 1, 0⟩], t.scope = "" → t.length = 1) ∧
    List.Pairwise (fun a b => a.start ≠ b.start)
      (([(⟨"", 0, 1, 0⟩ : Token), ⟨"", 1, 1, 0⟩]).filter (fun t => t.scope == "")) := by
  refine c3_filler_invariants L0 rcT gW 9 0 (['b', 'b']) [⟨[gW.root], 0⟩]
    [⟨"", 0, 1, 0⟩, ⟨"", 1, 1, 0⟩] (.ok [⟨[gW.root], 0⟩]) ?_ ?_
  · intro f hf
    rw [List.mem_singleton.mp hf]
    intro r hr
    rw [List.mem_singleton.mp hr]
    exact pncGW
  · rfl

end GoTextmate
